import Mathlib

/-!
The package `embeddedfs`: a read-only in-memory file system.

Shallow embedding of `embeddedfs.go` and a verification of its handle
semantics (read, positioned read, seek, stat, directory listing, close) and
of the path lookup.

Conventions of the embedding

* Go `int` and `int64` values are `Int`s; the additions the program performs
  on `int64` are wrapped with `wrapInt64` (two's complement, modulo `2^64`).
  `len` of a slice is a non-negative `int`, so `int64(len(s))` is the length.
* A `*FileInfo` / `*EmbeddedFile` pointer is an `Option`: `none` is `nil`.
* A `[]byte` is a `List UInt8`.  A call that writes into the caller's buffer
  returns the buffer's new contents.
* A method with a pointer receiver returns the receiver's new state.
* A run-time panic (slice bounds out of range, nil dereference) is `none`.
-/

namespace embeddedfs

/-! ## Machine integers -/

/-- Smallest `int64`. -/
def minInt64 : Int := -(2 ^ 63)

/-- Largest `int64` (and largest `int`, hence largest slice length). -/
def maxInt64 : Int := 2 ^ 63 - 1

/-- Two's-complement wraparound of an exact integer into the `int64` range. -/
def wrapInt64 (x : Int) : Int := (x + 2 ^ 63) % 2 ^ 64 - 2 ^ 63

/-- The value is representable as an `int64`. -/
def isInt64 (x : Int) : Prop := minInt64 ≤ x ∧ x ≤ maxInt64

instance (x : Int) : Decidable (isInt64 x) := by
  unfold isInt64; exact inferInstance

/-! ## Errors and library constants -/

/-- The error values the package returns: its own four, and the ones it takes
from `os` and `io`. -/
inductive GoError where
  | ErrInvalidOffset
  | ErrInvalidWhence
  | ErrInvalidDir
  | ErrInvalidCount
  | ErrClosed
  | ErrNotExist
  | EOF
  deriving DecidableEq

/-- Constant `io.SeekStart`. -/
def SeekStart : Int := 0

/-- Constant `io.SeekCurrent`. -/
def SeekCurrent : Int := 1

/-- Constant `io.SeekEnd`. -/
def SeekEnd : Int := 2

/-- Constant `os.ModeDir`, the directory bit of an `os.FileMode` (a `uint32`). -/
def ModeDir : Nat := 1 <<< 31

/-- Method `os.FileMode.IsDir`: `m&ModeDir != 0`. -/
def FileMode.IsDir (m : Nat) : Bool := (m &&& ModeDir) != 0

/-! ## Slices -/

/-- The slice expression `s[i:]`: panics unless `0 ≤ i ≤ len(s)`. -/
def sliceFrom {α : Type} (s : List α) (i : Int) : Option (List α) :=
  if 0 ≤ i ∧ i ≤ (s.length : Int) then some (s.drop i.toNat) else none

/-- The slice expression `s[0:j]`: panics unless `0 ≤ j ≤ len(s)` (the
capacity is taken to be the length). -/
def sliceTo {α : Type} (s : List α) (j : Int) : Option (List α) :=
  if 0 ≤ j ∧ j ≤ (s.length : Int) then some (s.take j.toNat) else none

/-- The builtin `copy(dst, src)`: overwrites the first `min(len(dst), len(src))`
elements of `dst` and returns that number with the new `dst`. -/
def copy {α : Type} (dst src : List α) : List α × Int :=
  (src.take (min dst.length src.length) ++ dst.drop (min dst.length src.length),
    ((min dst.length src.length : Nat) : Int))

/-! ## Data model -/

/-- Type `FileInfo`: name, size, mode bits, modification time. -/
structure FileInfo where
  RawName : String
  RawSize : Int
  RawMode : Nat
  RawModTime : Int
  deriving DecidableEq

/-- Method `(*FileInfo).Name`. -/
def FileInfo.Name (i : FileInfo) : String := i.RawName

/-- Method `(*FileInfo).Size`. -/
def FileInfo.Size (i : FileInfo) : Int := i.RawSize

/-- Method `(*FileInfo).Mode`. -/
def FileInfo.Mode (i : FileInfo) : Nat := i.RawMode

/-- Method `(*FileInfo).ModTime`. -/
def FileInfo.ModTime (i : FileInfo) : Int := i.RawModTime

/-- Method `(*FileInfo).IsDir`. -/
def FileInfo.IsDir (i : FileInfo) : Bool := FileMode.IsDir i.RawMode

/-- Type `EmbeddedFile`: a record of the store. -/
structure EmbeddedFile where
  Info : Option FileInfo
  Content : List UInt8
  Children : List (Option FileInfo)
  deriving DecidableEq

/-- The handle type `embeddedFile`. -/
structure embeddedFile where
  info : Option FileInfo
  content : List UInt8
  children : List (Option FileInfo)
  offset : Int
  closed : Bool
  deriving DecidableEq

/-- Type `EmbeddedFileSystem`, a `map[string]*EmbeddedFile`: the keys with their
record pointers. -/
abbrev EmbeddedFileSystem := List (String × Option EmbeddedFile)

/-! ## The store -/

/-- Method `EmbeddedFileSystem.Open`: the handle (or `nil`) and the error; `none`
is the nil dereference of a key bound to a nil record. -/
def EmbeddedFileSystem.Open (fs : EmbeddedFileSystem) (name : String) :
    Option (Option embeddedFile × Option GoError) :=
  match fs.lookup name with
  | none => some (none, some GoError.ErrNotExist)
  | some none => none
  | some (some basic) =>
    some (some { info := basic.Info, content := basic.Content,
                 children := basic.Children, offset := 0, closed := false }, none)

/-- Method `EmbeddedFileSystem.Stat`. -/
def EmbeddedFileSystem.Stat (fs : EmbeddedFileSystem) (name : String) :
    Option (Option FileInfo × Option GoError) :=
  match fs.lookup name with
  | none => some (none, some GoError.ErrNotExist)
  | some none => none
  | some (some basic) => some (basic.Info, none)

/-! ## The handle -/

/-- What `Read` and `ReadAt` hand back: the buffer after the call, the count
and the error. -/
structure ReadResult where
  buf : List UInt8
  n : Int
  err : Option GoError
  deriving DecidableEq

/-- Method `(*embeddedFile).Close`. -/
def embeddedFile.Close (f : embeddedFile) : embeddedFile × Option GoError :=
  ({ f with closed := true }, none)

/-- Method `(*embeddedFile).Read`. -/
def embeddedFile.Read (f : embeddedFile) (p : List UInt8) :
    Option (embeddedFile × ReadResult) :=
  if f.closed then some (f, ⟨p, 0, some GoError.ErrClosed⟩)
  else if f.offset ≥ (f.content.length : Int) then some (f, ⟨p, 0, some GoError.EOF⟩)
  else
    match sliceFrom f.content f.offset with
    | none => none
    | some src =>
      some ({ f with offset := wrapInt64 (f.offset + (copy p src).2) },
            ⟨(copy p src).1, (copy p src).2, none⟩)

/-- Method `(*embeddedFile).ReadAt`. -/
def embeddedFile.ReadAt (f : embeddedFile) (p : List UInt8) (offset : Int) :
    Option (embeddedFile × ReadResult) :=
  if f.closed then some (f, ⟨p, 0, some GoError.ErrClosed⟩)
  else if offset < 0 then some (f, ⟨p, 0, some GoError.ErrInvalidOffset⟩)
  else if offset ≥ (f.content.length : Int) then some (f, ⟨p, 0, some GoError.EOF⟩)
  else
    match sliceFrom f.content offset with
    | none => none
    | some src =>
      some (f, ⟨(copy p src).1, (copy p src).2,
                if (copy p src).2 < (p.length : Int) then some GoError.EOF else none⟩)

/-- The `switch whence` of `Seek`: the value assigned to `abs`, or `none` in
the `default` branch. -/
def embeddedFile.seekAbs (f : embeddedFile) (offset whence : Int) : Option Int :=
  if whence = SeekStart then some offset
  else if whence = SeekCurrent then some (wrapInt64 (f.offset + offset))
  else if whence = SeekEnd then some (wrapInt64 ((f.content.length : Int) + offset))
  else none

/-- Method `(*embeddedFile).Seek`. -/
def embeddedFile.Seek (f : embeddedFile) (offset whence : Int) :
    embeddedFile × Int × Option GoError :=
  if f.closed then (f, 0, some GoError.ErrClosed)
  else
    match f.seekAbs offset whence with
    | none => (f, 0, some GoError.ErrInvalidWhence)
    | some abs =>
      if abs < 0 then (f, 0, some GoError.ErrInvalidOffset)
      else ({ f with offset := abs }, abs, none)

/-- Method `(*embeddedFile).Stat`. -/
def embeddedFile.Stat (f : embeddedFile) :
    embeddedFile × Option FileInfo × Option GoError :=
  if f.closed then (f, none, some GoError.ErrClosed)
  else (f, f.info, none)

/-- Method `(*embeddedFile).Readdir`: the returned slice (`none` is the nil slice)
and the error; the outer `none` is a panic (nil `info`, slice out of range). -/
def embeddedFile.Readdir (f : embeddedFile) (count : Int) :
    Option (embeddedFile × Option (List (Option FileInfo)) × Option GoError) :=
  if f.closed then some (f, none, some GoError.ErrClosed)
  else
    match f.info with
    | none => none
    | some info =>
      if !FileMode.IsDir info.RawMode then some (f, none, some GoError.ErrInvalidDir)
      else if 0 > count then some (f, some f.children, none)
      else if (f.children.length : Int) < count then
        some (f, none, some GoError.ErrInvalidCount)
      else
        match sliceTo f.children count with
        | none => none
        | some cs => some (f, some cs, none)

/-! ## Calls, traces and reachable handles -/

/-- One call on a handle, with its arguments. -/
inductive Call where
  | Read (p : List UInt8)
  | ReadAt (p : List UInt8) (offset : Int)
  | Seek (offset whence : Int)
  | Stat
  | Readdir (count : Int)
  | Close
  deriving DecidableEq

/-- What a call hands back to the caller. -/
inductive Response where
  | Read (r : ReadResult)
  | ReadAt (r : ReadResult)
  | Seek (abs : Int) (err : Option GoError)
  | Stat (info : Option FileInfo) (err : Option GoError)
  | Readdir (entries : Option (List (Option FileInfo))) (err : Option GoError)
  | Close (err : Option GoError)
  deriving DecidableEq

/-- The arguments are values of their Go types: `int64` offsets, `int`
whence and count, buffers no longer than the largest `int`. -/
def Call.WellTyped : Call → Prop
  | Call.Read p => (p.length : Int) ≤ maxInt64
  | Call.ReadAt p offset => (p.length : Int) ≤ maxInt64 ∧ isInt64 offset
  | Call.Seek offset whence => isInt64 offset ∧ isInt64 whence
  | Call.Stat => True
  | Call.Readdir count => isInt64 count
  | Call.Close => True

instance (c : Call) : Decidable c.WellTyped := by
  cases c <;> unfold Call.WellTyped <;> exact inferInstance

/-- Runs one call: the handle afterwards and the response (`none`: panic). -/
def embeddedFile.call (f : embeddedFile) : Call → Option (embeddedFile × Response)
  | Call.Read p =>
    match f.Read p with
    | none => none
    | some (f', r) => some (f', Response.Read r)
  | Call.ReadAt p offset =>
    match f.ReadAt p offset with
    | none => none
    | some (f', r) => some (f', Response.ReadAt r)
  | Call.Seek offset whence =>
    some ((f.Seek offset whence).1,
          Response.Seek (f.Seek offset whence).2.1 (f.Seek offset whence).2.2)
  | Call.Stat => some (f.Stat.1, Response.Stat f.Stat.2.1 f.Stat.2.2)
  | Call.Readdir count =>
    match f.Readdir count with
    | none => none
    | some (f', entries, err) => some (f', Response.Readdir entries err)
  | Call.Close => some (f.Close.1, Response.Close f.Close.2)

/-- Runs a sequence of calls in order, collecting the responses. -/
def embeddedFile.calls (f : embeddedFile) : List Call → Option (embeddedFile × List Response)
  | [] => some (f, [])
  | c :: cs =>
    match f.call c with
    | none => none
    | some (f', r) =>
      match embeddedFile.calls f' cs with
      | none => none
      | some (f'', rs) => some (f'', r :: rs)

/-- The response a closed handle is specified to give to a call: the closed
error with zero bytes or no value, and success for `Close`. -/
def Call.closedResponse : Call → Response
  | Call.Read p => Response.Read ⟨p, 0, some GoError.ErrClosed⟩
  | Call.ReadAt p _ => Response.ReadAt ⟨p, 0, some GoError.ErrClosed⟩
  | Call.Seek _ _ => Response.Seek 0 (some GoError.ErrClosed)
  | Call.Stat => Response.Stat none (some GoError.ErrClosed)
  | Call.Readdir _ => Response.Readdir none (some GoError.ErrClosed)
  | Call.Close => Response.Close none

/-- The slices of a record have lengths that fit an `int`. -/
def EmbeddedFile.WellTyped (b : EmbeddedFile) : Prop :=
  (b.Content.length : Int) ≤ maxInt64 ∧ (b.Children.length : Int) ≤ maxInt64

instance (b : EmbeddedFile) : Decidable b.WellTyped := by
  unfold EmbeddedFile.WellTyped; exact inferInstance

/-- Every record of the store is well typed. -/
def EmbeddedFileSystem.WellTyped (fs : EmbeddedFileSystem) : Prop :=
  ∀ e ∈ fs, ∀ b ∈ e.2, EmbeddedFile.WellTyped b

/-- The handles a program can hold: what `Open` returns on a well-typed
store, and what a handle becomes under a well-typed call that returns. -/
inductive Reachable : embeddedFile → Prop where
  | opened (fs : EmbeddedFileSystem) (name : String) (f : embeddedFile) :
      fs.WellTyped → fs.Open name = some (some f, none) → Reachable f
  | call (f : embeddedFile) (c : Call) (f' : embeddedFile) (r : Response) :
      Reachable f → c.WellTyped → f.call c = some (f', r) → Reachable f'

/-- The bytes a read returned: the first `n` bytes of the buffer. -/
def ReadResult.bytes (r : ReadResult) : List UInt8 := r.buf.take r.n.toNat

/-- A caller's loop: `Read` into the same buffer until it returns `io.EOF`,
keeping every result in order, the final one included.  `none` when the fuel
runs out first, or a `Read` panics or returns another error. -/
def readUntilEOF : Nat → embeddedFile → List UInt8 → Option (List ReadResult)
  | 0, _, _ => none
  | fuel + 1, f, p =>
    match f.Read p with
    | none => none
    | some (f', r) =>
      if r.err = some GoError.EOF then some [r]
      else if r.err = none then
        match readUntilEOF fuel f' r.buf with
        | none => none
        | some rs => some (r :: rs)
      else none

/-- The state invariant of a handle: the cursor is a non-negative `int64`
and the content is no longer than the largest `int`. -/
def embeddedFile.Inv (f : embeddedFile) : Prop :=
  0 ≤ f.offset ∧ f.offset ≤ maxInt64 ∧ (f.content.length : Int) ≤ maxInt64

/-- The candidate position of the specification of `Seek`, in exact integer
arithmetic: `offset` from the start, `currentOffset + offset` from the
current position, `len(content) + offset` from the end; `none` for a whence
that is not one of the three. -/
def specCandidate (f : embeddedFile) (offset whence : Int) : Option Int :=
  if whence = SeekStart then some offset
  else if whence = SeekCurrent then some (f.offset + offset)
  else if whence = SeekEnd then some ((f.content.length : Int) + offset)
  else none

/-- The handles a sequence of calls goes through: the handle after each call
that returns, in order, up to the first call that panics. -/
def embeddedFile.states (f : embeddedFile) : List Call → List embeddedFile
  | [] => []
  | c :: cs =>
    match f.call c with
    | none => []
    | some (f', _) => f' :: embeddedFile.states f' cs

/-- No key of the store is bound to a nil record, and no record has a nil
`Info`. -/
def EmbeddedFileSystem.NonNil (fs : EmbeddedFileSystem) : Prop :=
  ∀ e ∈ fs, ∃ b, e.2 = some b ∧ b.Info ≠ none

/-- The part of the handle invariant that keeps the slice expressions in
range: the cursor is not negative and the content is no longer than the
largest `int`. -/
def embeddedFile.Safe (f : embeddedFile) : Prop :=
  0 ≤ f.offset ∧ (f.content.length : Int) ≤ maxInt64

/-- The quotient `L / B` rounded up. -/
def ceilDiv (L B : Nat) : Nat := (L + B - 1) / B

/-- The keys of the store. -/
def EmbeddedFileSystem.keys (fs : EmbeddedFileSystem) : List String := fs.map Prod.fst

/-! ## Example data -/

/-- A regular file of five bytes, mode `0644`. -/
def exampleInfo : FileInfo := ⟨"a.txt", 5, 420, 0⟩

/-- A directory, mode `ModeDir | 0755`. -/
def exampleDirInfo : FileInfo := ⟨"d", 0, 2147484141, 0⟩

/-- The record of the regular file. -/
def exampleFile : EmbeddedFile := ⟨some exampleInfo, [104, 101, 108, 108, 111], []⟩

/-- The record of the directory, with three children. -/
def exampleDir : EmbeddedFile :=
  ⟨some exampleDirInfo, [],
   [some ⟨"x", 1, 420, 0⟩, some ⟨"y", 2, 420, 0⟩, some ⟨"z", 3, 420, 0⟩]⟩

/-- A store with the two records. -/
def exampleStore : EmbeddedFileSystem :=
  [("/a.txt", some exampleFile), ("/d", some exampleDir)]

/-- The handle `Open` returns for the regular file. -/
def exampleHandle : embeddedFile :=
  { info := some exampleInfo, content := [104, 101, 108, 108, 111], children := [],
    offset := 0, closed := false }

/-- The handle `Open` returns for the directory. -/
def exampleDirHandle : embeddedFile :=
  { info := some exampleDirInfo, content := [],
    children := [some ⟨"x", 1, 420, 0⟩, some ⟨"y", 2, 420, 0⟩, some ⟨"z", 3, 420, 0⟩],
    offset := 0, closed := false }

/-- The example handle after `Seek(3, io.SeekStart)`. -/
def exampleHandleAt3 : embeddedFile := { exampleHandle with offset := 3 }

/-- A handle of a regular file (mode `0644`) that nevertheless carries two
children. -/
def exampleOddHandle : embeddedFile :=
  { info := some exampleInfo, content := [1, 2],
    children := [some ⟨"x", 1, 420, 0⟩, none], offset := 0, closed := false }

/-- A store with one key bound to a nil record. -/
def exampleNilStore : EmbeddedFileSystem := [("/nil", none)]

/-- A record whose stored size, 99, is not the length of its content, 2. -/
def exampleSizedFile : EmbeddedFile := ⟨some ⟨"s", 99, 420, 0⟩, [1, 2], []⟩

/-- A store with that record alone. -/
def exampleSizedStore : EmbeddedFileSystem := [("/s", some exampleSizedFile)]

/-- The handle `Open` returns for it. -/
def exampleSizedHandle : embeddedFile :=
  { info := some ⟨"s", 99, 420, 0⟩, content := [1, 2], children := [],
    offset := 0, closed := false }

/-! ## Machine integers: facts -/

theorem wrapInt64_of_isInt64 {x : Int} (h : isInt64 x) : wrapInt64 x = x := by
  unfold isInt64 minInt64 maxInt64 at h
  unfold wrapInt64
  norm_num at h ⊢
  omega

theorem isInt64_wrapInt64 (x : Int) : isInt64 (wrapInt64 x) := by
  unfold isInt64 minInt64 maxInt64 wrapInt64
  norm_num
  omega

/-! ## Slices: facts -/

theorem copy_fst_length {α : Type} (dst src : List α) :
    (copy dst src).1.length = dst.length := by
  simp only [copy, List.length_append, List.length_take, List.length_drop]
  omega

theorem copy_snd_eq {α : Type} (dst src : List α) :
    (copy dst src).2 = ((min dst.length src.length : Nat) : Int) := rfl

theorem copy_fst_take {α : Type} (dst src : List α) :
    (copy dst src).1.take (copy dst src).2.toNat = src.take (min dst.length src.length) := by
  simp only [copy, Int.toNat_ofNat]
  rw [List.take_append_of_le_length (by simp)]
  rw [List.take_take]
  simp

theorem copy_fst_drop {α : Type} (dst src : List α) :
    (copy dst src).1.drop (copy dst src).2.toNat = dst.drop (copy dst src).2.toNat := by
  simp only [copy, Int.toNat_ofNat]
  rw [List.drop_append_of_le_length (by simp)]
  rw [List.drop_eq_nil_of_le (by simp)]
  simp

theorem sliceFrom_eq_some {α : Type} (s : List α) (i : Int)
    (h0 : 0 ≤ i) (h1 : i ≤ (s.length : Int)) :
    sliceFrom s i = some (s.drop i.toNat) := by
  simp [sliceFrom, h0, h1]

/-! ## Read: the data branch -/

/-- On an open handle whose cursor lies inside the content, `Read` copies
from the cursor and adds the count to the cursor in `int64` arithmetic. -/
theorem Read_data (f : embeddedFile) (p : List UInt8)
    (hopen : f.closed = false) (h0 : 0 ≤ f.offset)
    (hlt : f.offset < (f.content.length : Int)) :
    f.Read p = some
      ({ f with offset := wrapInt64 (f.offset + (copy p (f.content.drop f.offset.toNat)).2) },
       ⟨(copy p (f.content.drop f.offset.toNat)).1,
        (copy p (f.content.drop f.offset.toNat)).2, none⟩) := by
  have hnot : ¬ f.offset ≥ (f.content.length : Int) := by omega
  simp only [embeddedFile.Read, hopen, hnot, if_false, Bool.false_eq_true,
    sliceFrom_eq_some f.content f.offset h0 (le_of_lt hlt)]

/-- The count of a `Read` in the data branch, as a natural number. -/
theorem copy_drop_count (content p : List UInt8) (off : Int)
    (h0 : 0 ≤ off) (hlt : off < (content.length : Int)) :
    (copy p (content.drop off.toNat)).2 =
      min (p.length : Int) ((content.length : Int) - off) := by
  simp only [copy, List.length_drop]
  omega

/-! ## The read loop -/

/-- At or past the end of the content the loop stops at once with a single
end-of-data result. -/
theorem readUntilEOF_at_end (fuel : Nat) (f : embeddedFile) (p : List UInt8)
    (hopen : f.closed = false) (hge : f.offset ≥ (f.content.length : Int)) :
    readUntilEOF (fuel + 1) f p = some [⟨p, 0, some GoError.EOF⟩] := by
  simp [readUntilEOF, embeddedFile.Read, hopen, hge]

/-- From any cursor inside the content, enough fuel makes the loop return
the rest of the content, in order, and counts that add up to its length. -/
theorem readUntilEOF_from (fuel : Nat) :
    ∀ (f : embeddedFile) (p : List UInt8),
      f.closed = false → 0 ≤ f.offset → f.offset ≤ (f.content.length : Int) →
      (f.content.length : Int) ≤ maxInt64 → 1 ≤ p.length →
      (f.content.length : Int) - f.offset ≤ (fuel : Int) * (p.length : Int) →
      ∃ rs, readUntilEOF (fuel + 1) f p = some rs ∧
        (rs.map ReadResult.bytes).flatten = f.content.drop f.offset.toNat ∧
        (rs.map ReadResult.n).sum = (f.content.length : Int) - f.offset := by
  induction fuel with
  | zero =>
    intro f p hopen h0 hle _ _ hfuel
    have hge : f.offset ≥ (f.content.length : Int) := by omega
    refine ⟨_, readUntilEOF_at_end 0 f p hopen hge, ?_, ?_⟩
    · have : f.content.length ≤ f.offset.toNat := by omega
      simp [ReadResult.bytes, List.drop_eq_nil_of_le this]
    · simp; omega
  | succ fuel ih =>
    intro f p hopen h0 hle hmax hB hfuel
    by_cases hge : f.offset ≥ (f.content.length : Int)
    · refine ⟨_, readUntilEOF_at_end (fuel + 1) f p hopen hge, ?_, ?_⟩
      · have : f.content.length ≤ f.offset.toNat := by omega
        simp [ReadResult.bytes, List.drop_eq_nil_of_le this]
      · simp; omega
    · have hlt : f.offset < (f.content.length : Int) := by omega
      have hread := Read_data f p hopen h0 hlt
      have hn := copy_drop_count f.content p f.offset h0 hlt
      generalize hc : copy p (f.content.drop f.offset.toNat) = c at hread hn
      have hclen : c.1.length = p.length := by rw [← hc]; exact copy_fst_length _ _
      have htake : c.1.take c.2.toNat =
          (f.content.drop f.offset.toNat).take (min p.length (f.content.length - f.offset.toNat)) := by
        rw [← hc, copy_fst_take, List.length_drop]
      have hwrap : wrapInt64 (f.offset + c.2) = f.offset + c.2 := by
        apply wrapInt64_of_isInt64
        unfold isInt64 minInt64
        unfold maxInt64 at hmax ⊢
        norm_num at hmax ⊢
        omega
      rw [hwrap] at hread
      have hfuel' : (f.content.length : Int) - (f.offset + c.2) ≤ (fuel : Int) * (p.length : Int) := by
        have hsplit : ((fuel + 1 : Nat) : Int) * (p.length : Int)
            = (fuel : Int) * (p.length : Int) + (p.length : Int) := by push_cast; ring
        have hfuel2 := hfuel
        rw [hsplit] at hfuel2
        have hq : 0 ≤ (fuel : Int) * (p.length : Int) := by positivity
        generalize (fuel : Int) * (p.length : Int) = q at hfuel2 hq ⊢
        omega
      obtain ⟨rs, hrs, hbytes, hsum⟩ :=
        ih { f with offset := f.offset + c.2 } c.1 hopen (by simp only; omega)
          (by simp only; omega) hmax (by omega) (by simp only; rw [hclen]; exact hfuel')
      refine ⟨⟨c.1, c.2, none⟩ :: rs, ?_, ?_, ?_⟩
      · rw [readUntilEOF, hread]
        simp only [reduceCtorEq, if_false, if_true]
        rw [hrs]
      · simp only [List.map_cons, List.flatten_cons, hbytes, ReadResult.bytes, htake]
        have hnat : (f.offset + c.2).toNat
            = f.offset.toNat + min p.length (f.content.length - f.offset.toNat) := by omega
        rw [hnat, ← List.drop_drop]
        exact List.take_append_drop _ _
      · simp only [List.map_cons, List.sum_cons, hsum]
        omega

/-! ## Round trip -/

/-- C1 (round-trip read): for every record of the store, with content of
length `L` that fits an `int`, and every buffer of `B ≥ 1` bytes, `Open`
returns a handle at offset 0, and calling `Read` with the buffer until it
returns `io.EOF` terminates (any fuel with `L ≤ fuel * B` is enough for the
`fuel + 1` calls); the bytes returned by the successive calls, concatenated in
order, are the content, and the returned counts add up to `L`. -/
theorem roundtrip_read (fs : EmbeddedFileSystem) (name : String) (basic : EmbeddedFile)
    (p : List UInt8) (fuel : Nat)
    (hrec : fs.lookup name = some (some basic))
    (hlen : (basic.Content.length : Int) ≤ maxInt64)
    (hB : 1 ≤ p.length)
    (hfuel : basic.Content.length ≤ fuel * p.length) :
    ∃ f rs, fs.Open name = some (some f, none) ∧ f.offset = 0 ∧ f.closed = false ∧
      readUntilEOF (fuel + 1) f p = some rs ∧
      (rs.map ReadResult.bytes).flatten = basic.Content ∧
      (rs.map ReadResult.n).sum = (basic.Content.length : Int) := by
  have hf : (basic.Content.length : Int) - 0 ≤ (fuel : Int) * (p.length : Int) := by
    rw [sub_zero]
    exact_mod_cast hfuel
  obtain ⟨rs, hrs, hbytes, hsum⟩ :=
    readUntilEOF_from fuel
      { info := basic.Info, content := basic.Content, children := basic.Children,
        offset := 0, closed := false } p rfl (le_refl _) (by simp) hlen hB hf
  refine ⟨_, rs, ?_, rfl, rfl, hrs, ?_, ?_⟩
  · simp only [EmbeddedFileSystem.Open, hrec]
  · simpa using hbytes
  · simpa using hsum

/-- C1 at the five-byte example file with a two-byte buffer. -/
theorem roundtrip_read_witness :
    (exampleStore.lookup "/a.txt" = some (some exampleFile) ∧
      (exampleFile.Content.length : Int) ≤ maxInt64 ∧
      1 ≤ ([0, 0] : List UInt8).length ∧
      exampleFile.Content.length ≤ 3 * ([0, 0] : List UInt8).length) ∧
    ∃ f rs, exampleStore.Open "/a.txt" = some (some f, none) ∧ f.offset = 0 ∧
      f.closed = false ∧
      readUntilEOF (3 + 1) f [0, 0] = some rs ∧
      (rs.map ReadResult.bytes).flatten = exampleFile.Content ∧
      (rs.map ReadResult.n).sum = (exampleFile.Content.length : Int) :=
  ⟨⟨by decide, by decide, by decide, by decide⟩,
   roundtrip_read exampleStore "/a.txt" exampleFile [0, 0] 3
     (by decide) (by decide) (by decide) (by decide)⟩

/-! ## Seek, then Read, against ReadAt -/

/-- Method `Seek` from the start to a non-negative position, on an open handle. -/
theorem Seek_start (f : embeddedFile) (k : Int) (hopen : f.closed = false) (hk : 0 ≤ k) :
    f.Seek k SeekStart = ({ f with offset := k }, k, none) := by
  have hnot : ¬ k < 0 := by omega
  simp [embeddedFile.Seek, embeddedFile.seekAbs, hopen, hnot]

/-- Method `ReadAt` on an open handle at a position inside the content. -/
theorem ReadAt_data (f : embeddedFile) (p : List UInt8) (a : Int)
    (hopen : f.closed = false) (h0 : 0 ≤ a) (hlt : a < (f.content.length : Int)) :
    f.ReadAt p a = some
      (f, ⟨(copy p (f.content.drop a.toNat)).1, (copy p (f.content.drop a.toNat)).2,
           if (copy p (f.content.drop a.toNat)).2 < (p.length : Int)
           then some GoError.EOF else none⟩) := by
  have hneg : ¬ a < 0 := by omega
  have hnot : ¬ a ≥ (f.content.length : Int) := by omega
  simp only [embeddedFile.ReadAt, hopen, hneg, hnot, if_false, Bool.false_eq_true,
    sliceFrom_eq_some f.content a h0 (le_of_lt hlt)]

/-- C2 (Seek + ReadAt agreement): on every open handle, for every offset
`0 ≤ k ≤ len(content)` and every two buffers of the same size, `Seek(k,
SeekStart)` succeeds and the following `Read` returns the same count and the
same bytes as `ReadAt` at `k` on that handle (asked before the seek or after
the read); with equal buffers the buffers are equal afterwards as well. -/
theorem seek_read_eq_readAt (f : embeddedFile) (k : Int) (p q : List UInt8)
    (hopen : f.closed = false) (hk0 : 0 ≤ k) (hkL : k ≤ (f.content.length : Int))
    (hpq : p.length = q.length) :
    (f.Seek k SeekStart).2 = (k, none) ∧
    ∃ f1 r1 r2, (f.Seek k SeekStart).1.Read p = some (f1, r1) ∧
      f.ReadAt q k = some (f, r2) ∧ f1.ReadAt q k = some (f1, r2) ∧
      r1.n = r2.n ∧ r1.bytes = r2.bytes ∧ (p = q → r1.buf = r2.buf) := by
  rw [Seek_start f k hopen hk0]
  refine ⟨rfl, ?_⟩
  by_cases hlt : k < (f.content.length : Int)
  · have hnot : ¬ k < 0 := by omega
    have hr := Read_data { f with offset := k } p hopen hk0 hlt
    refine ⟨_, _, _, hr, ReadAt_data f q k hopen hk0 hlt,
      ReadAt_data _ q k hopen hk0 hlt, ?_, ?_, ?_⟩
    · simp only [copy, hpq]
    · simp only [ReadResult.bytes, copy_fst_take, hpq]
    · intro h; subst h; rfl
  · have hge : k ≥ (f.content.length : Int) := by omega
    have hnot : ¬ k < 0 := by omega
    refine ⟨{ f with offset := k }, ⟨p, 0, some GoError.EOF⟩, ⟨q, 0, some GoError.EOF⟩,
      ?_, ?_, ?_, rfl, ?_, ?_⟩
    · simp [embeddedFile.Read, hopen, hge]
    · simp [embeddedFile.ReadAt, hopen, hge, hnot]
    · simp [embeddedFile.ReadAt, hopen, hge, hnot]
    · simp [ReadResult.bytes]
    · intro h; subst h; rfl

/-- C2 at the example handle: offset 3, two-byte buffers. -/
theorem seek_read_eq_readAt_witness :
    (exampleHandle.closed = false ∧ (0 : Int) ≤ 3 ∧
      (3 : Int) ≤ (exampleHandle.content.length : Int) ∧
      ([0, 0] : List UInt8).length = ([7, 7] : List UInt8).length) ∧
    ((exampleHandle.Seek 3 SeekStart).2 = (3, none) ∧
    ∃ f1 r1 r2, (exampleHandle.Seek 3 SeekStart).1.Read [0, 0] = some (f1, r1) ∧
      exampleHandle.ReadAt [7, 7] 3 = some (exampleHandle, r2) ∧
      f1.ReadAt [7, 7] 3 = some (f1, r2) ∧
      r1.n = r2.n ∧ r1.bytes = r2.bytes ∧
      (([0, 0] : List UInt8) = [7, 7] → r1.buf = r2.buf)) :=
  ⟨⟨by decide, by decide, by decide, by decide⟩,
   seek_read_eq_readAt exampleHandle 3 [0, 0] [7, 7]
     (by decide) (by decide) (by decide) (by decide)⟩

/-! ## Closed handles -/

/-- A closed handle answers every call with its closed response and stays
as it is. -/
theorem call_closed (g : embeddedFile) (c : Call) (hclosed : g.closed = true) :
    g.call c = some (g, c.closedResponse) := by
  cases c with
  | Read p => simp [embeddedFile.call, embeddedFile.Read, hclosed, Call.closedResponse]
  | ReadAt p offset =>
    simp [embeddedFile.call, embeddedFile.ReadAt, hclosed, Call.closedResponse]
  | Seek offset whence =>
    simp [embeddedFile.call, embeddedFile.Seek, hclosed, Call.closedResponse]
  | Stat => simp [embeddedFile.call, embeddedFile.Stat, hclosed, Call.closedResponse]
  | Readdir count =>
    simp [embeddedFile.call, embeddedFile.Readdir, hclosed, Call.closedResponse]
  | Close =>
    cases g
    simp only at hclosed
    simp [embeddedFile.call, embeddedFile.Close, hclosed, Call.closedResponse]

/-- A closed handle answers every sequence of calls with the closed
responses and stays as it is. -/
theorem calls_closed (g : embeddedFile) (hclosed : g.closed = true) (cs : List Call) :
    g.calls cs = some (g, cs.map Call.closedResponse) := by
  induction cs with
  | nil => rfl
  | cons c cs ih => simp [embeddedFile.calls, call_closed g c hclosed, ih]

/-- C3 (closed handle rejects everything): for every handle, `Close` returns
success and leaves the handle closed, and in every sequence of calls made
afterwards, with any arguments, every `Read`, `ReadAt`, `Seek`, `Stat` and
`Readdir` returns `os.ErrClosed` with zero bytes or no value (the buffer
untouched), every `Close` returns success, no call panics, and the handle is
the same closed handle after the whole sequence. -/
theorem closed_rejects_everything (f : embeddedFile) (cs : List Call) :
    f.Close.2 = none ∧ f.Close.1.closed = true ∧
    f.Close.1.calls cs = some (f.Close.1, cs.map Call.closedResponse) :=
  ⟨rfl, rfl, calls_closed f.Close.1 rfl cs⟩

/-! ## Reachable handles -/

/-- A key found by the lookup is bound in the store. -/
theorem mem_of_lookup {β : Type} (name : String) (v : β) :
    ∀ (l : List (String × β)), l.lookup name = some v → ∃ k, (k, v) ∈ l := by
  intro l
  induction l with
  | nil => intro h; simp at h
  | cons e l ih =>
    intro h
    obtain ⟨k, w⟩ := e
    rw [List.lookup_cons] at h
    by_cases hk : (name == k) = true
    · simp only [hk] at h
      cases h
      exact ⟨k, List.mem_cons_self _ _⟩
    · simp only [hk] at h
      obtain ⟨k', hk'⟩ := ih h
      exact ⟨k', List.mem_cons_of_mem _ hk'⟩

/-- Method `Read` keeps the invariant. -/
theorem Read_inv (f f' : embeddedFile) (p : List UInt8) (r : ReadResult)
    (hinv : f.Inv) (h : f.Read p = some (f', r)) : f'.Inv := by
  obtain ⟨h0, h1, h2⟩ := hinv
  unfold embeddedFile.Read at h
  split at h
  · cases h; exact ⟨h0, h1, h2⟩
  · split at h
    · cases h; exact ⟨h0, h1, h2⟩
    · rename_i hlt
      have hlt' : f.offset < (f.content.length : Int) := by omega
      rw [sliceFrom_eq_some f.content f.offset h0 (le_of_lt hlt')] at h
      simp only [Option.some.injEq, Prod.mk.injEq] at h
      obtain ⟨hf, _⟩ := h
      subst hf
      have hn := copy_drop_count f.content p f.offset h0 hlt'
      have hwrap : wrapInt64 (f.offset + (copy p (f.content.drop f.offset.toNat)).2)
          = f.offset + (copy p (f.content.drop f.offset.toNat)).2 := by
        apply wrapInt64_of_isInt64
        unfold isInt64 minInt64
        unfold maxInt64 at h2 ⊢
        norm_num at h2 ⊢
        omega
      unfold embeddedFile.Inv
      simp only [hwrap]
      refine ⟨by omega, by omega, h2⟩

/-- Method `Seek` with an `int64` offset keeps the invariant. -/
theorem Seek_inv (f : embeddedFile) (offset whence : Int)
    (hinv : f.Inv) (hoff : isInt64 offset) : (f.Seek offset whence).1.Inv := by
  obtain ⟨h0, h1, h2⟩ := hinv
  unfold embeddedFile.Seek
  split
  · exact ⟨h0, h1, h2⟩
  · split
    · exact ⟨h0, h1, h2⟩
    · rename_i abs habs
      split
      · exact ⟨h0, h1, h2⟩
      · rename_i hneg
        have hrange : isInt64 abs := by
          unfold embeddedFile.seekAbs at habs
          split at habs
          · cases habs; exact hoff
          · split at habs
            · cases habs; exact isInt64_wrapInt64 _
            · split at habs
              · cases habs; exact isInt64_wrapInt64 _
              · cases habs
        exact ⟨by simp only; omega, hrange.2, h2⟩

/-- Every call that returns keeps the invariant. -/
theorem call_inv (f f' : embeddedFile) (c : Call) (r : Response)
    (hinv : f.Inv) (hc : c.WellTyped) (h : f.call c = some (f', r)) : f'.Inv := by
  cases c with
  | Read p =>
    simp only [embeddedFile.call] at h
    split at h
    · cases h
    · rename_i g rr hread
      cases h
      exact Read_inv f _ p rr hinv hread
  | ReadAt p offset =>
    simp only [embeddedFile.call] at h
    split at h
    · cases h
    · rename_i g rr hread
      cases h
      unfold embeddedFile.ReadAt at hread
      split at hread
      · cases hread; exact hinv
      · split at hread
        · cases hread; exact hinv
        · split at hread
          · cases hread; exact hinv
          · split at hread
            · cases hread
            · cases hread; exact hinv
  | Seek offset whence =>
    simp only [embeddedFile.call, Option.some.injEq, Prod.mk.injEq] at h
    rw [← h.1]
    exact Seek_inv f offset whence hinv hc.1
  | Stat =>
    simp only [embeddedFile.call, Option.some.injEq, Prod.mk.injEq] at h
    rw [← h.1]
    unfold embeddedFile.Stat
    split <;> exact hinv
  | Readdir count =>
    simp only [embeddedFile.call] at h
    split at h
    · cases h
    · rename_i g entries err hrd
      cases h
      unfold embeddedFile.Readdir at hrd
      split at hrd
      · cases hrd; exact hinv
      · split at hrd
        · cases hrd
        · split at hrd
          · cases hrd; exact hinv
          · split at hrd
            · cases hrd; exact hinv
            · split at hrd
              · cases hrd; exact hinv
              · split at hrd
                · cases hrd
                · cases hrd; exact hinv
  | Close =>
    simp only [embeddedFile.call, Option.some.injEq, Prod.mk.injEq] at h
    rw [← h.1]
    exact hinv

/-- Every reachable handle satisfies the invariant. -/
theorem Reachable.inv {f : embeddedFile} (h : Reachable f) : f.Inv := by
  induction h with
  | opened fs name f hfs hopen =>
    unfold EmbeddedFileSystem.Open at hopen
    split at hopen
    · cases hopen
    · cases hopen
    · rename_i basic hlook
      simp only [Option.some.injEq, Prod.mk.injEq, and_true] at hopen
      subst hopen
      obtain ⟨k, hk⟩ := mem_of_lookup name (some basic) fs hlook
      have hb := hfs (k, some basic) hk basic rfl
      exact ⟨le_refl _, by unfold maxInt64; norm_num, hb.1⟩
  | call f c f' r _ hc hcall ih => exact call_inv f f' c r ih hc hcall

/-- The example store is well typed. -/
theorem exampleStore_wellTyped : exampleStore.WellTyped := by
  intro e he b hb
  simp only [exampleStore, List.mem_cons, List.mem_singleton, List.not_mem_nil, or_false] at he
  rcases he with rfl | rfl
  · simp only [Option.mem_def, Option.some.injEq] at hb
    subst hb
    decide
  · simp only [Option.mem_def, Option.some.injEq] at hb
    subst hb
    decide

/-- The example handle is what `Open` returns. -/
theorem exampleHandle_reachable : Reachable exampleHandle :=
  Reachable.opened exampleStore "/a.txt" exampleHandle exampleStore_wellTyped (by decide)

/-- The example handle moved to offset 3 is reachable. -/
theorem exampleHandleAt3_reachable : Reachable exampleHandleAt3 :=
  Reachable.call exampleHandle (Call.Seek 3 SeekStart) exampleHandleAt3
    (Response.Seek 3 none) exampleHandle_reachable (by decide) (by decide)

/-! ## Read -/

/-- C4 (Read postcondition): for every open handle a program can hold whose
cursor is before the end of the content, and every buffer, `Read` returns
`n = min(len(buffer), len(content) - offset)` with no error; the first `n`
bytes of the buffer are `content[offset .. offset+n)`, the bytes beyond `n`
and the buffer's length are unchanged, and the handle afterwards differs only
in its offset, which is the old offset plus `n`. -/
theorem Read_postcondition (f : embeddedFile) (p : List UInt8)
    (hreach : Reachable f) (hopen : f.closed = false)
    (hlt : f.offset < (f.content.length : Int)) :
    ∃ r, f.Read p = some ({ f with offset := f.offset + r.n }, r) ∧
      r.n = min (p.length : Int) ((f.content.length : Int) - f.offset) ∧
      r.err = none ∧
      r.buf.length = p.length ∧
      r.buf.take r.n.toNat = (f.content.drop f.offset.toNat).take r.n.toNat ∧
      r.buf.drop r.n.toNat = p.drop r.n.toNat := by
  obtain ⟨h0, h1, h2⟩ := hreach.inv
  have hread := Read_data f p hopen h0 hlt
  have hn := copy_drop_count f.content p f.offset h0 hlt
  have hwrap : wrapInt64 (f.offset + (copy p (f.content.drop f.offset.toNat)).2)
      = f.offset + (copy p (f.content.drop f.offset.toNat)).2 := by
    apply wrapInt64_of_isInt64
    unfold isInt64 minInt64
    unfold maxInt64 at h2 ⊢
    norm_num at h2 ⊢
    omega
  rw [hwrap] at hread
  refine ⟨⟨(copy p (f.content.drop f.offset.toNat)).1,
      (copy p (f.content.drop f.offset.toNat)).2, none⟩,
    hread, hn, rfl, copy_fst_length _ _, ?_, copy_fst_drop _ _⟩
  show List.take (copy p (f.content.drop f.offset.toNat)).2.toNat
      (copy p (f.content.drop f.offset.toNat)).1
    = List.take (copy p (f.content.drop f.offset.toNat)).2.toNat
      (f.content.drop f.offset.toNat)
  rw [copy_fst_take, copy_snd_eq, Int.toNat_ofNat]

/-- C4 at the example handle moved to offset 3, with a four-byte buffer. -/
theorem Read_postcondition_witness :
    (Reachable exampleHandleAt3 ∧ exampleHandleAt3.closed = false ∧
      exampleHandleAt3.offset < (exampleHandleAt3.content.length : Int)) ∧
    ∃ r, exampleHandleAt3.Read [1, 2, 3, 4]
        = some ({ exampleHandleAt3 with offset := exampleHandleAt3.offset + r.n }, r) ∧
      r.n = min (([1, 2, 3, 4] : List UInt8).length : Int)
        ((exampleHandleAt3.content.length : Int) - exampleHandleAt3.offset) ∧
      r.err = none ∧
      r.buf.length = ([1, 2, 3, 4] : List UInt8).length ∧
      r.buf.take r.n.toNat
        = (exampleHandleAt3.content.drop exampleHandleAt3.offset.toNat).take r.n.toNat ∧
      r.buf.drop r.n.toNat = ([1, 2, 3, 4] : List UInt8).drop r.n.toNat :=
  ⟨⟨exampleHandleAt3_reachable, by decide, by decide⟩,
   Read_postcondition exampleHandleAt3 [1, 2, 3, 4] exampleHandleAt3_reachable
     (by decide) (by decide)⟩

/-! ## ReadAt -/

/-- C5 (ReadAt equals its reference definition): on every open handle, for
every buffer and absolute offset `a`, `ReadAt` returns `(0, ErrInvalidOffset)`
if `a < 0` and `(0, io.EOF)` if `a ≥ len(content)`, the buffer untouched;
otherwise it returns `n = min(len(buffer), len(content) - a)`, the first `n`
bytes of the buffer are `content[a .. a+n)` and the rest of the buffer is
unchanged, the error is `io.EOF` exactly when `n < len(buffer)` and there is
no error exactly when `n = len(buffer)`. -/
theorem ReadAt_reference (f : embeddedFile) (p : List UInt8) (a : Int)
    (hopen : f.closed = false) :
    (a < 0 → f.ReadAt p a = some (f, ⟨p, 0, some GoError.ErrInvalidOffset⟩)) ∧
    (a ≥ (f.content.length : Int) → f.ReadAt p a = some (f, ⟨p, 0, some GoError.EOF⟩)) ∧
    (0 ≤ a → a < (f.content.length : Int) →
      ∃ r, f.ReadAt p a = some (f, r) ∧
        r.n = min (p.length : Int) ((f.content.length : Int) - a) ∧
        r.buf.length = p.length ∧
        r.buf.take r.n.toNat = (f.content.drop a.toNat).take r.n.toNat ∧
        r.buf.drop r.n.toNat = p.drop r.n.toNat ∧
        (r.err = some GoError.EOF ↔ r.n < (p.length : Int)) ∧
        (r.err = none ↔ r.n = (p.length : Int))) := by
  refine ⟨?_, ?_, ?_⟩
  · intro ha
    simp [embeddedFile.ReadAt, hopen, ha]
  · intro ha
    have hnot : ¬ a < 0 := by omega
    simp [embeddedFile.ReadAt, hopen, ha, hnot]
  · intro h0 hlt
    have hn := copy_drop_count f.content p a h0 hlt
    refine ⟨_, ReadAt_data f p a hopen h0 hlt, hn, copy_fst_length _ _, ?_,
      copy_fst_drop _ _, ?_, ?_⟩
    · show List.take (copy p (f.content.drop a.toNat)).2.toNat
          (copy p (f.content.drop a.toNat)).1
        = List.take (copy p (f.content.drop a.toNat)).2.toNat (f.content.drop a.toNat)
      rw [copy_fst_take, copy_snd_eq, Int.toNat_ofNat]
    · show (if (copy p (f.content.drop a.toNat)).2 < (p.length : Int)
          then some GoError.EOF else none) = some GoError.EOF ↔ _
      split
      · simp; omega
      · simp; omega
    · show (if (copy p (f.content.drop a.toNat)).2 < (p.length : Int)
          then some GoError.EOF else none) = none ↔ _
      split
      · simp; omega
      · simp; omega

/-- C5 at the example handle: a four-byte buffer at offset 3 gets the last
two bytes and `io.EOF`. -/
theorem ReadAt_reference_witness :
    (exampleHandle.closed = false ∧ (0 : Int) ≤ 3 ∧
      (3 : Int) < (exampleHandle.content.length : Int)) ∧
    ∃ r, exampleHandle.ReadAt [1, 2, 3, 4] 3 = some (exampleHandle, r) ∧
      r.n = min (([1, 2, 3, 4] : List UInt8).length : Int)
        ((exampleHandle.content.length : Int) - 3) ∧
      r.buf.length = ([1, 2, 3, 4] : List UInt8).length ∧
      r.buf.take r.n.toNat
        = (exampleHandle.content.drop (3 : Int).toNat).take r.n.toNat ∧
      r.buf.drop r.n.toNat = ([1, 2, 3, 4] : List UInt8).drop r.n.toNat ∧
      (r.err = some GoError.EOF ↔ r.n < (([1, 2, 3, 4] : List UInt8).length : Int)) ∧
      (r.err = none ↔ r.n = (([1, 2, 3, 4] : List UInt8).length : Int)) :=
  ⟨⟨by decide, by decide, by decide⟩,
   (ReadAt_reference exampleHandle [1, 2, 3, 4] 3 (by decide)).2.2 (by decide) (by decide)⟩

/-- C6 (ReadAt is stateless with respect to the cursor): for every handle,
open or closed, every buffer and every absolute offset, `ReadAt` returns
without a panic and hands back the handle exactly as it was (offset and
closed flag included), and its result is the same whatever the handle's
offset is. -/
theorem ReadAt_stateless (f : embeddedFile) (p : List UInt8) (a : Int) :
    ∃ r, f.ReadAt p a = some (f, r) ∧
      ∀ o : Int, ({ f with offset := o } : embeddedFile).ReadAt p a
        = some ({ f with offset := o }, r) := by
  by_cases hclosed : f.closed = true
  · exact ⟨⟨p, 0, some GoError.ErrClosed⟩, by simp [embeddedFile.ReadAt, hclosed],
      fun o => by simp [embeddedFile.ReadAt, hclosed]⟩
  · have hopen : f.closed = false := by simpa using hclosed
    by_cases hneg : a < 0
    · exact ⟨⟨p, 0, some GoError.ErrInvalidOffset⟩,
        by simp [embeddedFile.ReadAt, hopen, hneg],
        fun o => by simp [embeddedFile.ReadAt, hopen, hneg]⟩
    · by_cases hge : a ≥ (f.content.length : Int)
      · exact ⟨⟨p, 0, some GoError.EOF⟩,
          by simp [embeddedFile.ReadAt, hopen, hneg, hge],
          fun o => by simp [embeddedFile.ReadAt, hopen, hneg, hge]⟩
      · have h0 : 0 ≤ a := by omega
        have hlt : a < (f.content.length : Int) := by omega
        exact ⟨_, ReadAt_data f p a hopen h0 hlt,
          fun o => ReadAt_data { f with offset := o } p a hopen h0 hlt⟩

/-! ## Seek -/

/-- When the exact candidate is representable, the `switch` of `Seek`
computes it. -/
theorem seekAbs_of_specCandidate (f : embeddedFile) (offset whence c : Int)
    (hc : specCandidate f offset whence = some c) (hrange : isInt64 c) :
    f.seekAbs offset whence = some c := by
  unfold specCandidate at hc
  unfold embeddedFile.seekAbs
  by_cases hw0 : whence = SeekStart
  · rw [if_pos hw0] at hc ⊢
    exact hc
  · rw [if_neg hw0] at hc ⊢
    by_cases hw1 : whence = SeekCurrent
    · rw [if_pos hw1] at hc ⊢
      cases hc
      rw [wrapInt64_of_isInt64 hrange]
    · rw [if_neg hw1] at hc ⊢
      by_cases hw2 : whence = SeekEnd
      · rw [if_pos hw2] at hc ⊢
        cases hc
        rw [wrapInt64_of_isInt64 hrange]
      · rw [if_neg hw2] at hc
        cases hc

/-- C7, as stated, fails: the example handle moved to offset 3 is reachable
and open, `2^63 - 1` is an `int64`, the candidate `3 + (2^63 - 1)` of
`Seek(2^63 - 1, io.SeekCurrent)` is not negative, and yet `Seek` returns
`ErrInvalidOffset` and leaves the cursor at 3, because the `int64` sum wraps
around to a negative value. -/
theorem Seek_success_counterexample :
    Reachable exampleHandleAt3 ∧ exampleHandleAt3.closed = false ∧
    isInt64 (2 ^ 63 - 1) ∧
    specCandidate exampleHandleAt3 (2 ^ 63 - 1) SeekCurrent = some (3 + (2 ^ 63 - 1)) ∧
    (0 : Int) ≤ 3 + (2 ^ 63 - 1) ∧
    exampleHandleAt3.Seek (2 ^ 63 - 1) SeekCurrent
      = (exampleHandleAt3, 0, some GoError.ErrInvalidOffset) ∧
    exampleHandleAt3.Seek (2 ^ 63 - 1) SeekCurrent
      ≠ ({ exampleHandleAt3 with offset := 3 + (2 ^ 63 - 1) }, 3 + (2 ^ 63 - 1), none) :=
  ⟨exampleHandleAt3_reachable, by decide, by decide, by decide, by decide, by decide,
   by decide⟩

/-- C7, amended (Seek success postcondition): for every open handle and every
`(offset, whence)` with whence one of `io.SeekStart`, `io.SeekCurrent`,
`io.SeekEnd`, if the candidate (`offset`, `currentOffset + offset`,
`len(content) + offset`) is `≥ 0` and at most `2^63 - 1`, then `Seek` returns
the candidate with no error and the handle afterwards has the candidate as
its cursor, with content, children, info and the closed flag unchanged. -/
theorem Seek_success (f : embeddedFile) (offset whence c : Int)
    (hopen : f.closed = false)
    (hc : specCandidate f offset whence = some c)
    (h0 : 0 ≤ c) (hmax : c ≤ maxInt64) :
    f.Seek offset whence = ({ f with offset := c }, c, none) := by
  have hrange : isInt64 c := ⟨by unfold minInt64; omega, hmax⟩
  have hnot : ¬ c < 0 := by omega
  simp [embeddedFile.Seek, hopen, seekAbs_of_specCandidate f offset whence c hc hrange, hnot]

/-- C7, amended, at the example handle at offset 3: `Seek(-1, io.SeekEnd)`
moves the cursor to 4. -/
theorem Seek_success_witness :
    (exampleHandleAt3.closed = false ∧
      specCandidate exampleHandleAt3 (-1) SeekEnd = some 4 ∧
      (0 : Int) ≤ 4 ∧ (4 : Int) ≤ maxInt64) ∧
    exampleHandleAt3.Seek (-1) SeekEnd = ({ exampleHandleAt3 with offset := 4 }, 4, none) :=
  ⟨⟨by decide, by decide, by decide, by decide⟩,
   Seek_success exampleHandleAt3 (-1) SeekEnd 4 (by decide) (by decide) (by decide)
     (by decide)⟩

/-- C8 (Seek failures are atomic): for every open handle a program can hold
and every `int64` offset, `Seek` with a whence other than `io.SeekStart`,
`io.SeekCurrent`, `io.SeekEnd` returns `ErrInvalidWhence`, and `Seek` with one
of the three whose candidate position (in exact arithmetic) is negative
returns `ErrInvalidOffset`; both return position 0 and leave the handle, the
cursor included, exactly as it was. -/
theorem Seek_failures_atomic (f : embeddedFile) (offset whence : Int)
    (hreach : Reachable f) (hopen : f.closed = false) (hoff : isInt64 offset) :
    (whence ≠ SeekStart → whence ≠ SeekCurrent → whence ≠ SeekEnd →
      f.Seek offset whence = (f, 0, some GoError.ErrInvalidWhence)) ∧
    (∀ c, specCandidate f offset whence = some c → c < 0 →
      f.Seek offset whence = (f, 0, some GoError.ErrInvalidOffset)) := by
  obtain ⟨h0, h1, h2⟩ := hreach.inv
  constructor
  · intro hw0 hw1 hw2
    have habs : f.seekAbs offset whence = none := by
      unfold embeddedFile.seekAbs
      rw [if_neg hw0, if_neg hw1, if_neg hw2]
    simp [embeddedFile.Seek, hopen, habs]
  · intro c hc hneg
    have hrange : isInt64 c := by
      unfold specCandidate at hc
      unfold isInt64 minInt64 maxInt64 at hoff ⊢
      unfold maxInt64 at h1 h2
      norm_num at hoff h1 h2 ⊢
      split at hc
      · cases hc; omega
      · split at hc
        · cases hc; omega
        · split at hc
          · cases hc; omega
          · cases hc
    simp [embeddedFile.Seek, hopen, seekAbs_of_specCandidate f offset whence c hc hrange, hneg]

/-- C8 at the freshly opened example handle: `Seek(-1, io.SeekCurrent)` from
offset 0 returns `ErrInvalidOffset` and leaves the offset at 0; whence 3 is
rejected with `ErrInvalidWhence`. -/
theorem Seek_failures_atomic_witness :
    (Reachable exampleHandle ∧ exampleHandle.closed = false ∧ isInt64 (-1)) ∧
    exampleHandle.offset = 0 ∧
    specCandidate exampleHandle (-1) SeekCurrent = some (-1) ∧
    exampleHandle.Seek (-1) SeekCurrent = (exampleHandle, 0, some GoError.ErrInvalidOffset) :=
  ⟨⟨exampleHandle_reachable, by decide, by decide⟩, by decide, by decide,
   (Seek_failures_atomic exampleHandle (-1) SeekCurrent exampleHandle_reachable
     (by decide) (by decide)).2 (-1) (by decide) (by decide)⟩

/-- C9 (seeking past the end is legal, and read then reports end of data): on
every open handle, for every `k ≥ len(content)`, `Seek(k, io.SeekStart)`
returns `k` with no error and sets the cursor to `k`; whenever the cursor of
an open handle is `≥ len(content)`, `Read` returns `n = 0` with `io.EOF`,
leaves the buffer as it was and the handle, cursor included, unchanged; so the
`Read` that follows such a `Seek` reports end of data. -/
theorem seek_past_end_read_eof (f : embeddedFile) (hopen : f.closed = false) :
    (∀ k : Int, k ≥ (f.content.length : Int) →
      f.Seek k SeekStart = ({ f with offset := k }, k, none)) ∧
    (∀ p : List UInt8, f.offset ≥ (f.content.length : Int) →
      f.Read p = some (f, ⟨p, 0, some GoError.EOF⟩)) ∧
    (∀ (k : Int) (p : List UInt8), k ≥ (f.content.length : Int) →
      (f.Seek k SeekStart).1.Read p
        = some ((f.Seek k SeekStart).1, ⟨p, 0, some GoError.EOF⟩)) := by
  refine ⟨?_, ?_, ?_⟩
  · intro k hk
    exact Seek_start f k hopen (by omega)
  · intro p hge
    simp [embeddedFile.Read, hopen, hge]
  · intro k p hk
    rw [Seek_start f k hopen (by omega)]
    simp [embeddedFile.Read, hopen, hk]

/-- C9 at the example handle: seek to 9 in a five-byte file, then read. -/
theorem seek_past_end_read_eof_witness :
    (exampleHandle.closed = false ∧ (9 : Int) ≥ (exampleHandle.content.length : Int)) ∧
    exampleHandle.Seek 9 SeekStart = ({ exampleHandle with offset := 9 }, 9, none) ∧
    (exampleHandle.Seek 9 SeekStart).1.Read [1, 2]
      = some ((exampleHandle.Seek 9 SeekStart).1, ⟨[1, 2], 0, some GoError.EOF⟩) :=
  ⟨⟨by decide, by decide⟩,
   (seek_past_end_read_eof exampleHandle (by decide)).1 9 (by decide),
   (seek_past_end_read_eof exampleHandle (by decide)).2.2 9 [1, 2] (by decide)⟩

/-! ## Readdir -/

/-- C10 (Readdir count policy): on every open handle whose mode has the
directory bit set, with `m` children, `Readdir(count)` returns all the
children in stored order with no error when `count < 0`, returns no entries
and `ErrInvalidCount` when `count > m`, and returns the first `count` children
in stored order with no error when `0 ≤ count ≤ m`; so `Readdir(m)` equals
`Readdir(-1)` and `Readdir(0)` is the empty list.  The handle is unchanged. -/
theorem Readdir_count_policy (f : embeddedFile) (info : FileInfo) (count : Int)
    (hopen : f.closed = false) (hinfo : f.info = some info)
    (hdir : FileMode.IsDir info.RawMode = true) :
    (count < 0 → f.Readdir count = some (f, some f.children, none)) ∧
    (count > (f.children.length : Int) →
      f.Readdir count = some (f, none, some GoError.ErrInvalidCount)) ∧
    (0 ≤ count → count ≤ (f.children.length : Int) →
      f.Readdir count = some (f, some (f.children.take count.toNat), none)) ∧
    f.Readdir (f.children.length : Int) = f.Readdir (-1) ∧
    f.Readdir 0 = some (f, some [], none) := by
  have hpos : ∀ c : Int, 0 ≤ c → c ≤ (f.children.length : Int) →
      f.Readdir c = some (f, some (f.children.take c.toNat), none) := by
    intro c h0 hle
    have h1 : ¬ 0 > c := by omega
    have h2 : ¬ (f.children.length : Int) < c := by omega
    simp [embeddedFile.Readdir, hopen, hinfo, hdir, h1, h2, sliceTo, h0, hle]
  have hneg : ∀ c : Int, c < 0 → f.Readdir c = some (f, some f.children, none) := by
    intro c hc
    simp [embeddedFile.Readdir, hopen, hinfo, hdir, hc]
  refine ⟨hneg count, ?_, hpos count, ?_, ?_⟩
  · intro hgt
    have h1 : ¬ 0 > count := by omega
    simp [embeddedFile.Readdir, hopen, hinfo, hdir, h1, hgt]
  · rw [hpos _ (by omega) (le_refl _), hneg (-1) (by omega)]
    simp
  · rw [hpos 0 (le_refl _) (by omega)]
    simp

/-- C10 at the example directory of three children: `Readdir(2)` returns the
first two, `Readdir(-1)` and `Readdir(3)` all three, `Readdir(4)` the count
error. -/
theorem Readdir_count_policy_witness :
    (exampleDirHandle.closed = false ∧ exampleDirHandle.info = some exampleDirInfo ∧
      FileMode.IsDir exampleDirInfo.RawMode = true) ∧
    exampleDirHandle.children.length = 3 ∧
    exampleDirHandle.Readdir 2
      = some (exampleDirHandle, some (exampleDirHandle.children.take 2), none) ∧
    exampleDirHandle.Readdir (-1)
      = some (exampleDirHandle, some exampleDirHandle.children, none) ∧
    exampleDirHandle.Readdir 3 = exampleDirHandle.Readdir (-1) ∧
    exampleDirHandle.Readdir 4
      = some (exampleDirHandle, none, some GoError.ErrInvalidCount) :=
  ⟨⟨by decide, by decide, by decide⟩, by decide,
   (Readdir_count_policy exampleDirHandle exampleDirInfo 2 (by decide) (by decide)
     (by decide)).2.2.1 (by decide) (by decide),
   (Readdir_count_policy exampleDirHandle exampleDirInfo (-1) (by decide) (by decide)
     (by decide)).1 (by decide),
   (Readdir_count_policy exampleDirHandle exampleDirInfo 3 (by decide) (by decide)
     (by decide)).2.2.2.1,
   (Readdir_count_policy exampleDirHandle exampleDirInfo 4 (by decide) (by decide)
     (by decide)).2.1 (by decide)⟩

/-- C11 (not a directory): on every open handle whose mode does not have the
directory bit set, `Readdir(count)` returns no entries and `ErrInvalidDir` for
every count, negative, zero, within or beyond the number of children, whatever
the child list holds; the handle is unchanged. -/
theorem Readdir_not_a_directory (f : embeddedFile) (info : FileInfo) (count : Int)
    (hopen : f.closed = false) (hinfo : f.info = some info)
    (hdir : FileMode.IsDir info.RawMode = false) :
    f.Readdir count = some (f, none, some GoError.ErrInvalidDir) := by
  simp [embeddedFile.Readdir, hopen, hinfo, hdir]

/-- C11 at a regular-file handle with two children, for counts -1, 0, 1, 2
and 5. -/
theorem Readdir_not_a_directory_witness :
    (exampleOddHandle.closed = false ∧ exampleOddHandle.info = some exampleInfo ∧
      FileMode.IsDir exampleInfo.RawMode = false ∧ exampleOddHandle.children.length = 2) ∧
    exampleOddHandle.Readdir (-1) = some (exampleOddHandle, none, some GoError.ErrInvalidDir) ∧
    exampleOddHandle.Readdir 0 = some (exampleOddHandle, none, some GoError.ErrInvalidDir) ∧
    exampleOddHandle.Readdir 1 = some (exampleOddHandle, none, some GoError.ErrInvalidDir) ∧
    exampleOddHandle.Readdir 2 = some (exampleOddHandle, none, some GoError.ErrInvalidDir) ∧
    exampleOddHandle.Readdir 5 = some (exampleOddHandle, none, some GoError.ErrInvalidDir) :=
  ⟨⟨by decide, by decide, by decide, by decide⟩,
   Readdir_not_a_directory exampleOddHandle exampleInfo (-1) (by decide) (by decide) (by decide),
   Readdir_not_a_directory exampleOddHandle exampleInfo 0 (by decide) (by decide) (by decide),
   Readdir_not_a_directory exampleOddHandle exampleInfo 1 (by decide) (by decide) (by decide),
   Readdir_not_a_directory exampleOddHandle exampleInfo 2 (by decide) (by decide) (by decide),
   Readdir_not_a_directory exampleOddHandle exampleInfo 5 (by decide) (by decide) (by decide)⟩

/-- Whatever `Readdir` returns, it hands the handle back as it was. -/
theorem Readdir_frame (f g : embeddedFile) (count : Int)
    (x : Option (List (Option FileInfo)) × Option GoError)
    (h : f.Readdir count = some (g, x)) : g = f := by
  unfold embeddedFile.Readdir at h
  split at h
  · cases h; rfl
  · split at h
    · cases h
    · split at h
      · cases h; rfl
      · split at h
        · cases h; rfl
        · split at h
          · cases h; rfl
          · split at h
            · cases h
            · cases h; rfl

/-- The body of `Readdir` does not mention the offset. -/
theorem Readdir_offset (f : embeddedFile) (count o : Int) :
    ({ f with offset := o } : embeddedFile).Readdir count
      = (f.Readdir count).map (fun r => ({ r.1 with offset := o }, r.2)) := by
  unfold embeddedFile.Readdir
  simp only
  split
  · rfl
  · split
    · rfl
    · split
      · rfl
      · split
        · rfl
        · split
          · rfl
          · split <;> rfl

/-- The only way `Readdir` fails to return is the nil `info` of an open
handle. -/
theorem Readdir_eq_none_iff (f : embeddedFile) (count : Int) :
    f.Readdir count = none ↔ f.closed = false ∧ f.info = none := by
  constructor
  · intro h
    unfold embeddedFile.Readdir at h
    split at h
    · cases h
    · rename_i hclosed
      split at h
      · rename_i hinfo
        exact ⟨by simpa using hclosed, hinfo⟩
      · split at h
        · cases h
        · split at h
          · cases h
          · split at h
            · cases h
            · rename_i h1 h2
              have hs : sliceTo f.children count = some (f.children.take count.toNat) := by
                simp only [sliceTo]
                rw [if_pos ⟨by omega, by omega⟩]
              rw [hs] at h
              cases h
  · rintro ⟨hopen, hinfo⟩
    simp [embeddedFile.Readdir, hopen, hinfo]

/-- C12 (Readdir has no pagination state): for every handle and every count,
a `Readdir(count)` that returns hands the handle back with every field as it
was, so the same call made again returns the same result; and the result is
the same whatever the handle's offset is (a panic, which only a nil `info` on
an open handle causes, included). -/
theorem Readdir_no_pagination (f : embeddedFile) (count : Int) :
    (∀ g x, f.Readdir count = some (g, x) → g = f ∧ g.Readdir count = some (g, x)) ∧
    (∀ o : Int, ({ f with offset := o } : embeddedFile).Readdir count
      = (f.Readdir count).map (fun r => ({ r.1 with offset := o }, r.2))) ∧
    (f.Readdir count = none ↔ f.closed = false ∧ f.info = none) := by
  refine ⟨?_, Readdir_offset f count, Readdir_eq_none_iff f count⟩
  intro g x h
  have hg := Readdir_frame f g count x h
  subst hg
  exact ⟨rfl, h⟩

/-- C12 at the example directory: `Readdir(2)` returns the first two children
and the handle unchanged, and returns the same again. -/
theorem Readdir_no_pagination_witness :
    exampleDirHandle.Readdir 2
      = some (exampleDirHandle, some (exampleDirHandle.children.take 2), none) ∧
    (exampleDirHandle = exampleDirHandle ∧
      exampleDirHandle.Readdir 2
        = some (exampleDirHandle, some (exampleDirHandle.children.take 2), none)) :=
  ⟨by decide,
   (Readdir_no_pagination exampleDirHandle 2).1 exampleDirHandle
     (some (exampleDirHandle.children.take 2), none) (by decide)⟩

/-! ## Close -/

/-- C13 (Close is idempotent and always succeeds): for every handle, open or
closed, `Close` returns no error and a handle with `closed` true and offset,
content, children and info as before; closing again returns no error and the
same handle. -/
theorem Close_idempotent (f : embeddedFile) :
    f.Close.2 = none ∧
    f.Close.1.closed = true ∧
    f.Close.1.offset = f.offset ∧ f.Close.1.content = f.content ∧
    f.Close.1.children = f.children ∧ f.Close.1.info = f.info ∧
    f.Close.1.Close = f.Close :=
  ⟨rfl, rfl, rfl, rfl, rfl, rfl, rfl⟩

/-! ## Lookup -/

/-- The lookup misses exactly on the paths that are not keys. -/
theorem lookup_eq_none_iff_not_key (fs : EmbeddedFileSystem) (name : String) :
    fs.lookup name = none ↔ name ∉ fs.keys := by
  simp only [List.lookup_eq_none_iff, EmbeddedFileSystem.keys, List.mem_map, not_exists,
    not_and, bne_iff_ne, ne_eq]
  constructor
  · intro h e he heq
    exact h e he heq.symm
  · intro h e he heq
    exact h e he heq.symm

/-- C14, as stated, fails: in the store whose only key `"/nil"` is bound to a
nil record, `"/nil"` is a key, and `Open` returns no handle (it panics on the
nil dereference), as does `Stat`. -/
theorem Open_exact_key_counterexample :
    "/nil" ∈ exampleNilStore.keys ∧ exampleNilStore.lookup "/nil" = some none ∧
    exampleNilStore.Open "/nil" = none ∧ exampleNilStore.Stat "/nil" = none :=
  ⟨by decide, by decide, by decide, by decide⟩

/-- C14, amended (lookup is an exact-key match): for every store and every
path, `Open(path)` returns `os.ErrNotExist` with no handle exactly when the
path is not a key of the store, and `Stat(path)` returns `os.ErrNotExist` in
exactly the same cases; when the path is a key bound to a non-nil record,
`Open` returns, with no error, a handle whose info, content and children are
those of the record, with offset 0 and `closed` false (and `Stat` returns the
record's info).  The store is a value that neither function changes. -/
theorem Open_exact_key (fs : EmbeddedFileSystem) (name : String) :
    (fs.Open name = some (none, some GoError.ErrNotExist) ↔ name ∉ fs.keys) ∧
    (fs.Stat name = some (none, some GoError.ErrNotExist) ↔ name ∉ fs.keys) ∧
    (∀ basic, fs.lookup name = some (some basic) →
      name ∈ fs.keys ∧
      fs.Open name
        = some (some ⟨basic.Info, basic.Content, basic.Children, 0, false⟩, none) ∧
      fs.Stat name = some (basic.Info, none)) := by
  refine ⟨?_, ?_, ?_⟩
  · rw [← lookup_eq_none_iff_not_key]
    unfold EmbeddedFileSystem.Open
    constructor
    · intro h
      split at h
      · assumption
      · cases h
      · cases h
    · intro h
      rw [h]
  · rw [← lookup_eq_none_iff_not_key]
    unfold EmbeddedFileSystem.Stat
    constructor
    · intro h
      split at h
      · assumption
      · cases h
      · simp at h
    · intro h
      rw [h]
  · intro basic h
    refine ⟨?_, ?_, ?_⟩
    · by_contra hk
      rw [← lookup_eq_none_iff_not_key, h] at hk
      cases hk
    · simp only [EmbeddedFileSystem.Open, h]
    · simp only [EmbeddedFileSystem.Stat, h]

/-- C14, amended, at the example store: `"/a.txt"` is bound to the example
file and `Open` returns the example handle. -/
theorem Open_exact_key_witness :
    exampleStore.lookup "/a.txt" = some (some exampleFile) ∧
    ("/a.txt" ∈ exampleStore.keys ∧
      exampleStore.Open "/a.txt"
        = some (some ⟨exampleFile.Info, exampleFile.Content, exampleFile.Children,
            0, false⟩, none) ∧
      exampleStore.Stat "/a.txt" = some (exampleFile.Info, none)) :=
  ⟨by decide, (Open_exact_key exampleStore "/a.txt").2.2 exampleFile (by decide)⟩

/-! ## Frame of a call -/

/-- A `Read` that returns changes at most the offset. -/
theorem Read_frame (f f' : embeddedFile) (p : List UInt8) (r : ReadResult)
    (h : f.Read p = some (f', r)) : ∃ o, f' = { f with offset := o } := by
  unfold embeddedFile.Read at h
  split at h
  · cases h; exact ⟨f.offset, rfl⟩
  · split at h
    · cases h; exact ⟨f.offset, rfl⟩
    · split at h
      · cases h
      · cases h; exact ⟨_, rfl⟩

/-- A `ReadAt` that returns changes nothing. -/
theorem ReadAt_frame (f f' : embeddedFile) (p : List UInt8) (a : Int) (r : ReadResult)
    (h : f.ReadAt p a = some (f', r)) : f' = f := by
  unfold embeddedFile.ReadAt at h
  split at h
  · cases h; rfl
  · split at h
    · cases h; rfl
    · split at h
      · cases h; rfl
      · split at h
        · cases h
        · cases h; rfl

/-- A `Seek` changes at most the offset. -/
theorem Seek_frame (f : embeddedFile) (offset whence : Int) :
    ∃ o, (f.Seek offset whence).1 = { f with offset := o } := by
  unfold embeddedFile.Seek
  split
  · exact ⟨f.offset, rfl⟩
  · split
    · exact ⟨f.offset, rfl⟩
    · split
      · exact ⟨f.offset, rfl⟩
      · exact ⟨_, rfl⟩

/-- The handle `Stat` hands back is the handle. -/
theorem Stat_frame (f : embeddedFile) : f.Stat.1 = f := by
  unfold embeddedFile.Stat
  split <;> rfl

/-- A call other than `Close` that returns changes at most the offset. -/
theorem call_frame (f f' : embeddedFile) (c : Call) (r : Response)
    (hc : c ≠ Call.Close) (h : f.call c = some (f', r)) :
    ∃ o, f' = { f with offset := o } := by
  cases c with
  | Read p =>
    simp only [embeddedFile.call] at h
    split at h
    · cases h
    · rename_i g rr hread
      cases h
      exact Read_frame f _ p rr hread
  | ReadAt p offset =>
    simp only [embeddedFile.call] at h
    split at h
    · cases h
    · rename_i g rr hread
      cases h
      exact ⟨f.offset, ReadAt_frame f _ p offset rr hread⟩
  | Seek offset whence =>
    simp only [embeddedFile.call, Option.some.injEq, Prod.mk.injEq] at h
    rw [← h.1]
    exact Seek_frame f offset whence
  | Stat =>
    simp only [embeddedFile.call, Option.some.injEq, Prod.mk.injEq] at h
    rw [← h.1, Stat_frame]
    exact ⟨f.offset, rfl⟩
  | Readdir count =>
    simp only [embeddedFile.call] at h
    split at h
    · cases h
    · rename_i g entries err hrd
      cases h
      exact ⟨f.offset, Readdir_frame f _ count (entries, err) hrd⟩
  | Close => exact absurd rfl hc

/-- Through calls other than `Close`, every handle reached differs from the
first at most in the offset. -/
theorem states_frame (cs : List Call) :
    ∀ f : embeddedFile, (∀ c ∈ cs, c ≠ Call.Close) →
      ∀ g ∈ f.states cs, ∃ o, g = { f with offset := o } := by
  induction cs with
  | nil => intro f _ g hg; simp [embeddedFile.states] at hg
  | cons c cs ih =>
    intro f hcs g hg
    simp only [embeddedFile.states] at hg
    split at hg
    · simp at hg
    · rename_i f' r hcall
      obtain ⟨o, ho⟩ := call_frame f f' c r (hcs c (List.mem_cons_self _ _)) hcall
      rcases List.mem_cons.mp hg with rfl | hg'
      · exact ⟨o, ho⟩
      · obtain ⟨o', ho'⟩ := ih f' (fun c' hc' => hcs c' (List.mem_cons_of_mem _ hc')) g hg'
        exact ⟨o', by rw [ho', ho]⟩

/-! ## Stat -/

/-- C15, as stated, fails: in the store whose only key `"/nil"` is bound to
a nil record, `"/nil"` is a key of the store, yet `Open` returns no handle on
which `Stat()` could be called and `Stat` on the store returns no `FileInfo`:
both panic on the nil dereference. -/
theorem Stat_agreement_counterexample :
    "/nil" ∈ exampleNilStore.keys ∧
    (¬ ∃ h, exampleNilStore.Open "/nil" = some h) ∧
    (¬ ∃ i, exampleNilStore.Stat "/nil" = some i) :=
  ⟨by decide, by simp [exampleNilStore, EmbeddedFileSystem.Open],
   by simp [exampleNilStore, EmbeddedFileSystem.Stat]⟩

/-- C15, amended (Stat agreement): for every store and every path that is a
key of it bound to a non-nil record, `Open(path)` returns a handle, and
`Stat()` on that handle returns, with no error, the same `FileInfo` (name,
size, mode and modification time) that `Stat(path)` on the store returns,
namely the record's, also after every step of any sequence of `Read`,
`ReadAt`, `Seek`, `Stat` and `Readdir` calls on the handle; handle `Stat()`
leaves the handle as it is, and the size reported is the one stored in the
record, whatever the length of the content. -/
theorem Stat_agreement (fs : EmbeddedFileSystem) (name : String) (basic : EmbeddedFile)
    (cs : List Call)
    (hlook : fs.lookup name = some (some basic))
    (hcs : ∀ c ∈ cs, c ≠ Call.Close) :
    name ∈ fs.keys ∧
    ∃ f, fs.Open name = some (some f, none) ∧
      fs.Stat name = some (basic.Info, none) ∧
      f.Stat = (f, basic.Info, none) ∧
      f.Stat.2.1.map FileInfo.Size = basic.Info.map FileInfo.RawSize ∧
      ∀ g ∈ f.states cs, g.Stat = (g, basic.Info, none) := by
  constructor
  · by_contra hk
    rw [← lookup_eq_none_iff_not_key, hlook] at hk
    cases hk
  · refine ⟨⟨basic.Info, basic.Content, basic.Children, 0, false⟩, ?_, ?_, rfl, ?_, ?_⟩
    · simp only [EmbeddedFileSystem.Open, hlook]
    · simp only [EmbeddedFileSystem.Stat, hlook]
    · show basic.Info.map FileInfo.Size = basic.Info.map FileInfo.RawSize
      rfl
    · intro g hg
      obtain ⟨o, ho⟩ := states_frame cs _ hcs g hg
      rw [ho]
      rfl

/-- C15, amended, at a record whose stored size (99) is not the length of its
content (2): `Open` returns a handle, and after a `Read`, a `Seek`, a
`ReadAt` and a `Readdir`, four steps that all return, `Stat()` still reports
the stored `FileInfo`, the one `Stat` on the store returns. -/
theorem Stat_agreement_witness :
    (exampleSizedStore.lookup "/s" = some (some exampleSizedFile) ∧
      (∀ c ∈ [Call.Read [0], Call.Seek 1 SeekStart, Call.ReadAt [0, 0] 0, Call.Readdir 0],
        c ≠ Call.Close)) ∧
    exampleSizedStore.Open "/s" = some (some exampleSizedHandle, none) ∧
    (exampleSizedHandle.states
      [Call.Read [0], Call.Seek 1 SeekStart, Call.ReadAt [0, 0] 0, Call.Readdir 0]).length = 4 ∧
    exampleSizedFile.Info.map FileInfo.Size = some 99 ∧
    exampleSizedFile.Content.length = 2 ∧
    ("/s" ∈ exampleSizedStore.keys ∧
    ∃ f, exampleSizedStore.Open "/s" = some (some f, none) ∧
      exampleSizedStore.Stat "/s" = some (exampleSizedFile.Info, none) ∧
      f.Stat = (f, exampleSizedFile.Info, none) ∧
      f.Stat.2.1.map FileInfo.Size = exampleSizedFile.Info.map FileInfo.RawSize ∧
      ∀ g ∈ f.states
          [Call.Read [0], Call.Seek 1 SeekStart, Call.ReadAt [0, 0] 0, Call.Readdir 0],
        g.Stat = (g, exampleSizedFile.Info, none)) :=
  ⟨⟨by decide, by decide⟩, by decide, by decide, by decide, by decide,
   Stat_agreement exampleSizedStore "/s" exampleSizedFile
     [Call.Read [0], Call.Seek 1 SeekStart, Call.ReadAt [0, 0] 0, Call.Readdir 0]
     (by decide) (by decide)⟩

/-! ## The cursor never goes negative -/

/-- A `Read` that returns keeps the cursor non-negative. -/
theorem Read_safe (f f' : embeddedFile) (p : List UInt8) (r : ReadResult)
    (hs : f.Safe) (h : f.Read p = some (f', r)) : f'.Safe := by
  obtain ⟨h0, h2⟩ := hs
  unfold embeddedFile.Read at h
  split at h
  · cases h; exact ⟨h0, h2⟩
  · split at h
    · cases h; exact ⟨h0, h2⟩
    · rename_i hlt
      have hlt' : f.offset < (f.content.length : Int) := by omega
      rw [sliceFrom_eq_some f.content f.offset h0 (le_of_lt hlt')] at h
      simp only [Option.some.injEq, Prod.mk.injEq] at h
      obtain ⟨hf, _⟩ := h
      subst hf
      have hn := copy_drop_count f.content p f.offset h0 hlt'
      have hwrap : wrapInt64 (f.offset + (copy p (f.content.drop f.offset.toNat)).2)
          = f.offset + (copy p (f.content.drop f.offset.toNat)).2 := by
        apply wrapInt64_of_isInt64
        unfold isInt64 minInt64
        unfold maxInt64 at h2 ⊢
        norm_num at h2 ⊢
        omega
      unfold embeddedFile.Safe
      simp only [hwrap]
      exact ⟨by omega, h2⟩

/-- With any arguments, `Seek` keeps the cursor non-negative: it stores only
a value that passed the `abs < 0` test. -/
theorem Seek_safe (f : embeddedFile) (offset whence : Int) (hs : f.Safe) :
    (f.Seek offset whence).1.Safe := by
  obtain ⟨h0, h2⟩ := hs
  unfold embeddedFile.Seek
  split
  · exact ⟨h0, h2⟩
  · split
    · exact ⟨h0, h2⟩
    · split
      · exact ⟨h0, h2⟩
      · exact ⟨by simp only; omega, h2⟩

/-- Every call that returns, with any arguments, keeps the cursor
non-negative. -/
theorem call_safe (f f' : embeddedFile) (c : Call) (r : Response)
    (hs : f.Safe) (h : f.call c = some (f', r)) : f'.Safe := by
  cases c with
  | Read p =>
    simp only [embeddedFile.call] at h
    split at h
    · cases h
    · rename_i g rr hread
      cases h
      exact Read_safe f _ p rr hs hread
  | Seek offset whence =>
    simp only [embeddedFile.call, Option.some.injEq, Prod.mk.injEq] at h
    rw [← h.1]
    exact Seek_safe f offset whence hs
  | Close =>
    simp only [embeddedFile.call, Option.some.injEq, Prod.mk.injEq] at h
    rw [← h.1]
    exact hs
  | ReadAt p offset =>
    obtain ⟨o, ho⟩ := call_frame f f' _ r (by simp) h
    have hrd : ∃ g rr, f.ReadAt p offset = some (g, rr) ∧ g = f' := by
      simp only [embeddedFile.call] at h
      split at h
      · cases h
      · rename_i g rr hread
        cases h
        exact ⟨_, rr, hread, rfl⟩
    obtain ⟨g, rr, hread, hg⟩ := hrd
    rw [← hg, ReadAt_frame f g p offset rr hread]
    exact hs
  | Stat =>
    simp only [embeddedFile.call, Option.some.injEq, Prod.mk.injEq] at h
    rw [← h.1, Stat_frame]
    exact hs
  | Readdir count =>
    simp only [embeddedFile.call] at h
    split at h
    · cases h
    · rename_i g entries err hrd
      cases h
      rw [Readdir_frame f _ count (entries, err) hrd]
      exact hs

/-- Every handle a sequence of calls goes through has a non-negative cursor. -/
theorem states_safe (cs : List Call) :
    ∀ f : embeddedFile, f.Safe → ∀ g ∈ f.states cs, g.Safe := by
  induction cs with
  | nil => intro f _ g hg; simp [embeddedFile.states] at hg
  | cons c cs ih =>
    intro f hs g hg
    simp only [embeddedFile.states] at hg
    split at hg
    · simp at hg
    · rename_i f' r hcall
      have hs' := call_safe f f' c r hs hcall
      rcases List.mem_cons.mp hg with rfl | hg'
      · exact hs'
      · exact ih f' hs' g hg'

/-- What `Open` returns on a well-typed store has cursor 0 and a content that
fits. -/
theorem Open_safe (fs : EmbeddedFileSystem) (name : String) (f : embeddedFile)
    (hfs : fs.WellTyped) (hopen : fs.Open name = some (some f, none)) :
    f.Safe ∧ f.offset = 0 ∧ f.closed = false ∧
      ∃ basic, fs.lookup name = some (some basic) ∧ f.info = basic.Info := by
  unfold EmbeddedFileSystem.Open at hopen
  split at hopen
  · cases hopen
  · cases hopen
  · rename_i basic hlook
    simp only [Option.some.injEq, Prod.mk.injEq, and_true] at hopen
    subst hopen
    obtain ⟨k, hk⟩ := mem_of_lookup name (some basic) fs hlook
    have hb := hfs (k, some basic) hk basic rfl
    exact ⟨⟨le_refl _, hb.1⟩, rfl, rfl, basic, hlook, rfl⟩

/-- C16 (cursor invariant): for every handle `Open` returns on a store whose
contents fit an `int`, and every finite sequence of `Read`, `ReadAt`, `Seek`,
`Stat`, `Readdir` and `Close` calls with arbitrary arguments, the offset is
`≥ 0` at the start and after every step, the additions of `Seek` and `Read`
being `int64` additions that wrap around modulo `2^64`. -/
theorem cursor_invariant (fs : EmbeddedFileSystem) (name : String) (f : embeddedFile)
    (cs : List Call)
    (hfs : fs.WellTyped) (hopen : fs.Open name = some (some f, none)) :
    0 ≤ f.offset ∧ ∀ g ∈ f.states cs, 0 ≤ g.offset := by
  have hs := (Open_safe fs name f hfs hopen).1
  exact ⟨hs.1, fun g hg => (states_safe cs f hs g hg).1⟩

/-- C16 at the example handle: a seek to 3, a seek by `2^63 - 1` from there
(which wraps and is refused), a seek by `-2^63` from the end (refused), a read
and a seek to `2^63 - 1` are five steps, after each of which the offset is
`≥ 0`. -/
theorem cursor_invariant_witness :
    (exampleStore.WellTyped ∧ exampleStore.Open "/a.txt" = some (some exampleHandle, none)) ∧
    (exampleHandle.states
      [Call.Seek 3 SeekStart, Call.Seek (2 ^ 63 - 1) SeekCurrent,
       Call.Seek (-(2 ^ 63)) SeekEnd, Call.Read [0, 0, 0], Call.Seek (2 ^ 63 - 1) SeekStart]).map
      embeddedFile.offset = [3, 3, 3, 5, 2 ^ 63 - 1] ∧
    (0 ≤ exampleHandle.offset ∧
      ∀ g ∈ exampleHandle.states
        [Call.Seek 3 SeekStart, Call.Seek (2 ^ 63 - 1) SeekCurrent,
         Call.Seek (-(2 ^ 63)) SeekEnd, Call.Read [0, 0, 0],
         Call.Seek (2 ^ 63 - 1) SeekStart],
        0 ≤ g.offset) :=
  ⟨⟨exampleStore_wellTyped, by decide⟩, by decide,
   cursor_invariant exampleStore "/a.txt" exampleHandle _ exampleStore_wellTyped (by decide)⟩

/-! ## Seek and wraparound -/

/-- With an `int64` offset, the `switch` of `Seek` computes the exact
candidate wrapped into the `int64` range. -/
theorem seekAbs_eq_wrap (f : embeddedFile) (offset whence c : Int)
    (hoff : isInt64 offset) (hc : specCandidate f offset whence = some c) :
    f.seekAbs offset whence = some (wrapInt64 c) := by
  unfold specCandidate at hc
  unfold embeddedFile.seekAbs
  by_cases hw0 : whence = SeekStart
  · rw [if_pos hw0] at hc ⊢
    cases hc
    rw [wrapInt64_of_isInt64 hoff]
  · rw [if_neg hw0] at hc ⊢
    by_cases hw1 : whence = SeekCurrent
    · rw [if_pos hw1] at hc ⊢
      cases hc
      rfl
    · rw [if_neg hw1] at hc ⊢
      by_cases hw2 : whence = SeekEnd
      · rw [if_pos hw2] at hc ⊢
        cases hc
        rfl
      · rw [if_neg hw2] at hc
        cases hc

/-- The exact candidate of a handle with a non-negative `int64` cursor and a
content that fits lies between `-2^63` and `2^64 - 2`. -/
theorem specCandidate_range (f : embeddedFile) (offset whence c : Int)
    (h0 : 0 ≤ f.offset) (hmax : f.offset ≤ maxInt64)
    (hlen : (f.content.length : Int) ≤ maxInt64) (hoff : isInt64 offset)
    (hc : specCandidate f offset whence = some c) :
    minInt64 ≤ c ∧ c ≤ 2 * maxInt64 := by
  unfold specCandidate at hc
  unfold isInt64 at hoff
  unfold minInt64 maxInt64 at *
  norm_num at hoff hmax hlen ⊢
  split at hc
  · cases hc; omega
  · split at hc
    · cases hc; omega
    · split at hc
      · cases hc; omega
      · cases hc

/-- C17 (Seek never succeeds with a wrapped value): with `int64` additions
that wrap around modulo `2^64`, for every open handle whose cursor is a
non-negative `int64` and whose content is at most `2^63 - 1` long, every
`int64` offset and every whence among `io.SeekStart`, `io.SeekCurrent`,
`io.SeekEnd`, with `c` the candidate position in exact integers: `Seek`
returns no error if and only if `0 ≤ c ≤ 2^63 - 1`; it then returns `c` and
sets the cursor to `c`; and when `c > 2^63 - 1` (as when `c < 0`) it returns
`ErrInvalidOffset` and leaves the handle, the cursor included, unchanged. -/
theorem Seek_never_wraps (f : embeddedFile) (offset whence c : Int)
    (hopen : f.closed = false) (h0 : 0 ≤ f.offset) (hmax : f.offset ≤ maxInt64)
    (hlen : (f.content.length : Int) ≤ maxInt64) (hoff : isInt64 offset)
    (hc : specCandidate f offset whence = some c) :
    ((f.Seek offset whence).2.2 = none ↔ 0 ≤ c ∧ c ≤ maxInt64) ∧
    (0 ≤ c ∧ c ≤ maxInt64 → f.Seek offset whence = ({ f with offset := c }, c, none)) ∧
    (maxInt64 < c → f.Seek offset whence = (f, 0, some GoError.ErrInvalidOffset)) ∧
    (c < 0 → f.Seek offset whence = (f, 0, some GoError.ErrInvalidOffset)) := by
  have habs := seekAbs_eq_wrap f offset whence c hoff hc
  have hrange := specCandidate_range f offset whence c h0 hmax hlen hoff hc
  have hok : 0 ≤ c ∧ c ≤ maxInt64 →
      f.Seek offset whence = ({ f with offset := c }, c, none) := by
    intro h
    have hci : isInt64 c := ⟨by unfold minInt64; omega, h.2⟩
    have hnot : ¬ c < 0 := by omega
    simp [embeddedFile.Seek, hopen, habs, wrapInt64_of_isInt64 hci, hnot]
  have hbig : maxInt64 < c → f.Seek offset whence = (f, 0, some GoError.ErrInvalidOffset) := by
    intro h
    have hneg : wrapInt64 c < 0 := by
      unfold wrapInt64
      unfold minInt64 maxInt64 at hrange
      unfold maxInt64 at h
      norm_num at hrange h ⊢
      omega
    simp [embeddedFile.Seek, hopen, habs, hneg]
  have hsmall : c < 0 → f.Seek offset whence = (f, 0, some GoError.ErrInvalidOffset) := by
    intro h
    have hci : isInt64 c := ⟨hrange.1, by unfold maxInt64; omega⟩
    simp [embeddedFile.Seek, hopen, habs, wrapInt64_of_isInt64 hci, h]
  refine ⟨⟨?_, ?_⟩, hok, hbig, hsmall⟩
  · intro hnone
    by_contra hcon
    have hcase : c < 0 ∨ maxInt64 < c := by
      by_cases hneg : c < 0
      · exact Or.inl hneg
      · right
        by_contra hle
        exact hcon ⟨by omega, by omega⟩
    rcases hcase with h | h
    · rw [hsmall h] at hnone; cases hnone
    · rw [hbig h] at hnone; cases hnone
  · intro h
    rw [hok h]

/-- C17 at the example handle moved to offset 3: the candidate of
`Seek(2^63 - 1, io.SeekCurrent)` is `2^63 + 2`, above `2^63 - 1`, and `Seek`
returns `ErrInvalidOffset` with the handle unchanged. -/
theorem Seek_never_wraps_witness :
    (exampleHandleAt3.closed = false ∧ 0 ≤ exampleHandleAt3.offset ∧
      exampleHandleAt3.offset ≤ maxInt64 ∧
      (exampleHandleAt3.content.length : Int) ≤ maxInt64 ∧ isInt64 (2 ^ 63 - 1) ∧
      specCandidate exampleHandleAt3 (2 ^ 63 - 1) SeekCurrent = some (2 ^ 63 + 2) ∧
      maxInt64 < 2 ^ 63 + 2) ∧
    exampleHandleAt3.Seek (2 ^ 63 - 1) SeekCurrent
      = (exampleHandleAt3, 0, some GoError.ErrInvalidOffset) :=
  ⟨⟨by decide, by decide, by decide, by decide, by decide, by decide, by decide⟩,
   (Seek_never_wraps exampleHandleAt3 (2 ^ 63 - 1) SeekCurrent (2 ^ 63 + 2)
     (by decide) (by decide) (by decide) (by decide) (by decide) (by decide)).2.2.1
     (by decide)⟩

/-! ## No slice goes out of range -/

/-- On every handle `ReadAt` returns, and hands the handle back: the slice
`content[offset:]` is taken only with `0 ≤ offset < len(content)`. -/
theorem ReadAt_returns (f : embeddedFile) (p : List UInt8) (a : Int) :
    ∃ r, f.ReadAt p a = some (f, r) := by
  by_cases hclosed : f.closed = true
  · exact ⟨⟨p, 0, some GoError.ErrClosed⟩, by simp [embeddedFile.ReadAt, hclosed]⟩
  · have hopen : f.closed = false := by simpa using hclosed
    by_cases hneg : a < 0
    · exact ⟨⟨p, 0, some GoError.ErrInvalidOffset⟩,
        by simp [embeddedFile.ReadAt, hopen, hneg]⟩
    · by_cases hge : a ≥ (f.content.length : Int)
      · exact ⟨⟨p, 0, some GoError.EOF⟩, by simp [embeddedFile.ReadAt, hopen, hneg, hge]⟩
      · exact ⟨_, ReadAt_data f p a hopen (by omega) (by omega)⟩

/-- On a handle with a non-negative cursor, `Read` returns: the slice
`content[offset:]` is taken only with `0 ≤ offset < len(content)`. -/
theorem Read_total (f : embeddedFile) (p : List UInt8) (hs : f.Safe) :
    ∃ f' r, f.Read p = some (f', r) := by
  unfold embeddedFile.Read
  split
  · exact ⟨_, _, rfl⟩
  · split
    · exact ⟨_, _, rfl⟩
    · rename_i hlt
      rw [sliceFrom_eq_some f.content f.offset hs.1 (by omega)]
      exact ⟨_, _, rfl⟩

/-- On a handle whose `info` is not nil, `Readdir` returns: the slice
`children[0:count]` is taken only with `0 ≤ count ≤ len(children)`. -/
theorem Readdir_total (f : embeddedFile) (count : Int) (hinfo : f.info ≠ none) :
    ∃ x, f.Readdir count = some (f, x) := by
  cases hrd : f.Readdir count with
  | none =>
    have h := (Readdir_eq_none_iff f count).mp hrd
    exact absurd h.2 hinfo
  | some v =>
    obtain ⟨g, x⟩ := v
    have hg := Readdir_frame f g count x hrd
    subst hg
    exact ⟨x, rfl⟩

/-- On a handle with a non-negative cursor and a non-nil `info`, every call
returns, whatever its arguments, and the handle afterwards is again such a
handle. -/
theorem call_total (f : embeddedFile) (c : Call) (hs : f.Safe) (hinfo : f.info ≠ none) :
    ∃ f' r, f.call c = some (f', r) ∧ f'.Safe ∧ f'.info ≠ none := by
  have hstep : ∃ f' r, f.call c = some (f', r) := by
    cases c with
    | Read p =>
      obtain ⟨f', r, h⟩ := Read_total f p hs
      exact ⟨f', Response.Read r, by simp only [embeddedFile.call, h]⟩
    | ReadAt p offset =>
      obtain ⟨r, h⟩ := ReadAt_returns f p offset
      exact ⟨f, Response.ReadAt r, by simp only [embeddedFile.call, h]⟩
    | Seek offset whence => exact ⟨_, _, rfl⟩
    | Stat => exact ⟨_, _, rfl⟩
    | Readdir count =>
      obtain ⟨x, h⟩ := Readdir_total f count hinfo
      exact ⟨f, Response.Readdir x.1 x.2, by simp only [embeddedFile.call, h]⟩
    | Close => exact ⟨_, _, rfl⟩
  obtain ⟨f', r, h⟩ := hstep
  refine ⟨f', r, h, call_safe f f' c r hs h, ?_⟩
  by_cases hc : c = Call.Close
  · subst hc
    simp only [embeddedFile.call, Option.some.injEq, Prod.mk.injEq] at h
    rw [← h.1]
    exact hinfo
  · obtain ⟨o, ho⟩ := call_frame f f' c r hc h
    rw [ho]
    exact hinfo

/-- On such a handle every sequence of calls runs to its end. -/
theorem calls_total (cs : List Call) :
    ∀ f : embeddedFile, f.Safe → f.info ≠ none →
      ∃ f' rs, f.calls cs = some (f', rs) ∧ rs.length = cs.length ∧
        (f.states cs).length = cs.length := by
  induction cs with
  | nil => intro f _ _; exact ⟨f, [], rfl, rfl, rfl⟩
  | cons c cs ih =>
    intro f hs hinfo
    obtain ⟨f1, r, hcall, hs1, hinfo1⟩ := call_total f c hs hinfo
    obtain ⟨f2, rs, hcalls, hlen, hstates⟩ := ih f1 hs1 hinfo1
    refine ⟨f2, r :: rs, ?_, ?_, ?_⟩
    · simp only [embeddedFile.calls, hcall, hcalls]
    · simp only [List.length_cons, hlen]
    · simp only [embeddedFile.states, hcall, List.length_cons, hstates]

/-- C18 (no out-of-range slicing): for every store whose contents fit an
`int` and whose records and their `Info` fields are not nil, every handle
`Open` returns and every finite sequence of calls with arbitrary arguments,
the whole sequence runs without a panic, one response per call: the handle
before each call has `0 ≤ offset`, so `content[offset:]` in `Read` (taken
when `offset < len(content)`) and in `ReadAt` (taken when `0 ≤ offset <
len(content)`) and `children[0:count]` in `Readdir` (taken when `0 ≤ count ≤
len(children)`) are in range, and the failure branch of the embedding is
never taken. -/
theorem no_out_of_range (fs : EmbeddedFileSystem) (name : String) (f : embeddedFile)
    (cs : List Call)
    (hfs : fs.WellTyped) (hnn : fs.NonNil)
    (hopen : fs.Open name = some (some f, none)) :
    (∃ f' rs, f.calls cs = some (f', rs) ∧ rs.length = cs.length) ∧
    (f.states cs).length = cs.length ∧
    (∀ g ∈ f :: f.states cs, 0 ≤ g.offset ∧ g.info ≠ none ∧
      ∀ (p : List UInt8) (a count : Int),
        (g.closed = false → g.offset < (g.content.length : Int) →
          sliceFrom g.content g.offset = some (g.content.drop g.offset.toNat)) ∧
        (0 ≤ a → a < (g.content.length : Int) →
          sliceFrom g.content a = some (g.content.drop a.toNat)) ∧
        (0 ≤ count → count ≤ (g.children.length : Int) →
          sliceTo g.children count = some (g.children.take count.toNat)) ∧
        g.Read p ≠ none ∧ g.ReadAt p a ≠ none ∧ g.Readdir count ≠ none) := by
  obtain ⟨hs, _, _, basic, hlook, hinfo⟩ := Open_safe fs name f hfs hopen
  have hnil : f.info ≠ none := by
    obtain ⟨k, hk⟩ := mem_of_lookup name (some basic) fs hlook
    obtain ⟨b, hb, hbi⟩ := hnn (k, some basic) hk
    simp only [Option.some.injEq] at hb
    subst hb
    rw [hinfo]
    exact hbi
  obtain ⟨f', rs, hcalls, hlen, hstates⟩ := calls_total cs f hs hnil
  refine ⟨⟨f', rs, hcalls, hlen⟩, hstates, ?_⟩
  have hall : ∀ (cs : List Call) (f : embeddedFile), f.Safe → f.info ≠ none →
      ∀ g ∈ f.states cs, g.Safe ∧ g.info ≠ none := by
    intro cs
    induction cs with
    | nil => intro f _ _ g hg; simp [embeddedFile.states] at hg
    | cons c cs ih =>
      intro f hs hinfo g hg
      obtain ⟨f1, r, hcall, hs1, hinfo1⟩ := call_total f c hs hinfo
      simp only [embeddedFile.states, hcall] at hg
      rcases List.mem_cons.mp hg with rfl | hg'
      · exact ⟨hs1, hinfo1⟩
      · exact ih f1 hs1 hinfo1 g hg'
  intro g hg
  have hg2 : g.Safe ∧ g.info ≠ none := by
    rcases List.mem_cons.mp hg with rfl | hg'
    · exact ⟨hs, hnil⟩
    · exact hall cs f hs hnil g hg'
  refine ⟨hg2.1.1, hg2.2, ?_⟩
  intro p a count
  refine ⟨?_, ?_, ?_, ?_, ?_, ?_⟩
  · intro _ hlt
    exact sliceFrom_eq_some g.content g.offset hg2.1.1 (le_of_lt hlt)
  · intro ha0 halt
    exact sliceFrom_eq_some g.content a ha0 (le_of_lt halt)
  · intro hc0 hcle
    simp only [sliceTo]
    rw [if_pos ⟨hc0, hcle⟩]
  · obtain ⟨f1, r, h⟩ := Read_total g p hg2.1
    rw [h]; simp
  · obtain ⟨r, h⟩ := ReadAt_returns g p a
    rw [h]; simp
  · obtain ⟨x, h⟩ := Readdir_total g count hg2.2
    rw [h]; simp

/-- The example store has no nil record and no nil `Info`. -/
theorem exampleStore_nonNil : exampleStore.NonNil := by
  intro e he
  simp only [exampleStore, List.mem_cons, List.mem_singleton, List.not_mem_nil, or_false] at he
  rcases he with rfl | rfl
  · exact ⟨exampleFile, rfl, by decide⟩
  · exact ⟨exampleDir, rfl, by decide⟩

/-- C18 at the example handle, with a negative `ReadAt` offset, an unknown
whence, an oversized `Readdir` count, an empty buffer, a seek past the end and
a read there: all seven calls return. -/
theorem no_out_of_range_witness :
    (exampleStore.WellTyped ∧ exampleStore.NonNil ∧
      exampleStore.Open "/a.txt" = some (some exampleHandle, none)) ∧
    (∃ f' rs, exampleHandle.calls
        [Call.ReadAt [0] (-5), Call.Seek (-9) 7, Call.Readdir 99, Call.Read [],
         Call.Seek 100 SeekStart, Call.Read [0, 0], Call.Readdir (-1)] = some (f', rs) ∧
      rs.length = [Call.ReadAt [0] (-5), Call.Seek (-9) 7, Call.Readdir 99, Call.Read [],
         Call.Seek 100 SeekStart, Call.Read [0, 0], Call.Readdir (-1)].length) :=
  ⟨⟨exampleStore_wellTyped, exampleStore_nonNil, by decide⟩,
   (no_out_of_range exampleStore "/a.txt" exampleHandle
     [Call.ReadAt [0] (-5), Call.Seek (-9) 7, Call.Readdir 99, Call.Read [],
      Call.Seek 100 SeekStart, Call.Read [0, 0], Call.Readdir (-1)]
     exampleStore_wellTyped exampleStore_nonNil (by decide)).1⟩

/-! ## Progress of Read -/

/-- Rounding up: nothing left needs no read. -/
theorem ceilDiv_zero (B : Nat) (hB : 1 ≤ B) : ceilDiv 0 B = 0 := by
  unfold ceilDiv
  apply Nat.div_eq_of_lt
  omega

/-- Rounding up: at most one buffer left needs one read. -/
theorem ceilDiv_le (R B : Nat) (hR : 1 ≤ R) (hle : R ≤ B) : ceilDiv R B = 1 := by
  unfold ceilDiv
  apply Nat.div_eq_of_lt_le
  · omega
  · omega

/-- Rounding up: a full buffer taken off needs one read less. -/
theorem ceilDiv_sub (R B : Nat) (hB : 1 ≤ B) (hle : B ≤ R) :
    ceilDiv R B = ceilDiv (R - B) B + 1 := by
  unfold ceilDiv
  have h : R + B - 1 = (R - B + B - 1) + B := by omega
  rw [h, Nat.add_div_right _ (by omega)]

/-- Rounding up: one read of `min B R` bytes leaves one read less to do. -/
theorem ceilDiv_step (R B : Nat) (hB : 1 ≤ B) (hR : 1 ≤ R) :
    ceilDiv R B = ceilDiv (R - min B R) B + 1 := by
  by_cases hle : R ≤ B
  · rw [ceilDiv_le R B hR hle, Nat.min_eq_right hle, Nat.sub_self, ceilDiv_zero B hB]
  · have hlt : B ≤ R := by omega
    rw [Nat.min_eq_left hlt]
    exact ceilDiv_sub R B hB hlt

/-- The loop from any cursor inside the content: as many successful reads as
the rest of the content divided by the buffer size, rounded up, each of at
least one byte, and then one end-of-data result. -/
theorem readUntilEOF_count (fuel : Nat) :
    ∀ (f : embeddedFile) (p : List UInt8),
      f.closed = false → 0 ≤ f.offset →
      (f.content.length : Int) ≤ maxInt64 → 1 ≤ p.length →
      ceilDiv (f.content.length - f.offset.toNat) p.length ≤ fuel →
      ∃ ss e, readUntilEOF (fuel + 1) f p = some (ss ++ [e]) ∧
        ss.length = ceilDiv (f.content.length - f.offset.toNat) p.length ∧
        (∀ r ∈ ss, r.err = none ∧ 1 ≤ r.n) ∧
        e.err = some GoError.EOF ∧ e.n = 0 := by
  induction fuel with
  | zero =>
    intro f p hopen h0 _ hB hfuel
    have hR : f.content.length - f.offset.toNat = 0 := by
      by_contra hne
      have h1 := ceilDiv_step (f.content.length - f.offset.toNat) p.length hB (by omega)
      omega
    have hge : f.offset ≥ (f.content.length : Int) := by omega
    refine ⟨[], ⟨p, 0, some GoError.EOF⟩, ?_, ?_, ?_, rfl, rfl⟩
    · rw [readUntilEOF_at_end 0 f p hopen hge]; rfl
    · rw [hR, ceilDiv_zero _ hB]; rfl
    · intro r hr; simp at hr
  | succ fuel ih =>
    intro f p hopen h0 hmax hB hfuel
    by_cases hge : f.offset ≥ (f.content.length : Int)
    · have hR : f.content.length - f.offset.toNat = 0 := by omega
      refine ⟨[], ⟨p, 0, some GoError.EOF⟩, ?_, ?_, ?_, rfl, rfl⟩
      · rw [readUntilEOF_at_end (fuel + 1) f p hopen hge]; rfl
      · rw [hR, ceilDiv_zero _ hB]; rfl
      · intro r hr; simp at hr
    · have hlt : f.offset < (f.content.length : Int) := by omega
      have hread := Read_data f p hopen h0 hlt
      have hstep := ceilDiv_step (f.content.length - f.offset.toNat) p.length hB (by omega)
      have hn : (copy p (f.content.drop f.offset.toNat)).2
          = ((min p.length (f.content.length - f.offset.toNat) : Nat) : Int) := by
        rw [copy_snd_eq, List.length_drop]
      generalize hc : copy p (f.content.drop f.offset.toNat) = c at hread hn
      have hclen : c.1.length = p.length := by rw [← hc]; exact copy_fst_length _ _
      generalize hm : min p.length (f.content.length - f.offset.toNat) = m at hn hstep
      have hm1 : 1 ≤ m ∧ m ≤ f.content.length - f.offset.toNat := by
        rw [← hm]; omega
      have hwrap : wrapInt64 (f.offset + c.2) = f.offset + c.2 := by
        apply wrapInt64_of_isInt64
        unfold isInt64 minInt64
        unfold maxInt64 at hmax ⊢
        norm_num at hmax ⊢
        omega
      rw [hwrap] at hread
      have hnat : (f.offset + c.2).toNat = f.offset.toNat + m := by omega
      have hrest : f.content.length - (f.offset + c.2).toNat
          = f.content.length - f.offset.toNat - m := by omega
      obtain ⟨ss, e, hrs, hlen, hall, he1, he2⟩ :=
        ih { f with offset := f.offset + c.2 } c.1 hopen (by simp only; omega) hmax
          (by omega) (by simp only; rw [hclen, hrest]; omega)
      simp only [hclen, hrest] at hlen
      refine ⟨⟨c.1, c.2, none⟩ :: ss, e, ?_, ?_, ?_, he1, he2⟩
      · rw [readUntilEOF, hread]
        simp only [reduceCtorEq, if_false, if_true]
        rw [hrs]
        rfl
      · simp only [List.length_cons, hlen]
        omega
      · intro r hr
        rcases List.mem_cons.mp hr with rfl | hr'
        · exact ⟨rfl, by simp only; omega⟩
        · exact hall r hr'

/-- C19 (Read makes progress and the read loop terminates): for every open
handle with `0 ≤ offset` (its content no longer than the largest `int`) and
every non-empty buffer, `Read` returns, and when it returns no error it
returns `n ≥ 1`, the offset afterwards is strictly larger and at most
`len(content)`; consequently, from a fresh handle (offset 0) over a content
of length `L`, the loop that reads with a buffer of `B ≥ 1` bytes until
`io.EOF` terminates, given fuel for its calls, after exactly `ceil(L / B)`
successful reads followed by one end-of-data result. -/
theorem Read_progress (f : embeddedFile) (p : List UInt8) (fuel : Nat)
    (hopen : f.closed = false) (h0 : 0 ≤ f.offset)
    (hmax : (f.content.length : Int) ≤ maxInt64) (hB : 1 ≤ p.length) :
    (∃ f' r, f.Read p = some (f', r) ∧
      (r.err = none → 1 ≤ r.n ∧ f.offset < f'.offset ∧
        f'.offset ≤ (f.content.length : Int))) ∧
    (f.offset = 0 → ceilDiv f.content.length p.length ≤ fuel →
      ∃ ss e, readUntilEOF (fuel + 1) f p = some (ss ++ [e]) ∧
        ss.length = ceilDiv f.content.length p.length ∧
        (∀ r ∈ ss, r.err = none ∧ 1 ≤ r.n) ∧
        e.err = some GoError.EOF ∧ e.n = 0) := by
  constructor
  · by_cases hge : f.offset ≥ (f.content.length : Int)
    · refine ⟨f, ⟨p, 0, some GoError.EOF⟩, by simp [embeddedFile.Read, hopen, hge], ?_⟩
      intro h
      cases h
    · have hlt : f.offset < (f.content.length : Int) := by omega
      have hn := copy_drop_count f.content p f.offset h0 hlt
      have hwrap : wrapInt64 (f.offset + (copy p (f.content.drop f.offset.toNat)).2)
          = f.offset + (copy p (f.content.drop f.offset.toNat)).2 := by
        apply wrapInt64_of_isInt64
        unfold isInt64 minInt64
        unfold maxInt64 at hmax ⊢
        norm_num at hmax ⊢
        omega
      refine ⟨_, _, Read_data f p hopen h0 hlt, ?_⟩
      intro _
      simp only [hwrap]
      omega
  · intro hzero hfuel
    have h := readUntilEOF_count fuel f p hopen h0 hmax hB
    rw [hzero] at h
    simp only [Int.toNat_zero, Nat.sub_zero] at h
    exact h hfuel

/-- C19 at the example handle with a two-byte buffer: the first read returns
two bytes, and the loop over the five bytes makes `ceil(5 / 2) = 3`
successful reads and then gets `io.EOF`. -/
theorem Read_progress_witness :
    (exampleHandle.closed = false ∧ 0 ≤ exampleHandle.offset ∧
      (exampleHandle.content.length : Int) ≤ maxInt64 ∧
      1 ≤ ([0, 0] : List UInt8).length ∧ exampleHandle.offset = 0 ∧
      ceilDiv exampleHandle.content.length ([0, 0] : List UInt8).length = 3) ∧
    ∃ ss e, readUntilEOF (3 + 1) exampleHandle [0, 0] = some (ss ++ [e]) ∧
      ss.length = ceilDiv exampleHandle.content.length ([0, 0] : List UInt8).length ∧
      (∀ r ∈ ss, r.err = none ∧ 1 ≤ r.n) ∧
      e.err = some GoError.EOF ∧ e.n = 0 :=
  ⟨⟨by decide, by decide, by decide, by decide, by decide, by decide⟩,
   (Read_progress exampleHandle [0, 0] 3 (by decide) (by decide) (by decide)
     (by decide)).2 (by decide) (by decide)⟩

/-! ## Empty buffers -/

/-- With an empty buffer and the cursor inside the content, `Read` returns
zero bytes, no error, and the handle as it was. -/
theorem Read_empty_data (f : embeddedFile)
    (hopen : f.closed = false) (h0 : 0 ≤ f.offset)
    (hlt : f.offset < (f.content.length : Int))
    (hmax : (f.content.length : Int) ≤ maxInt64) :
    f.Read [] = some (f, ⟨[], 0, none⟩) := by
  have hread := Read_data f [] hopen h0 hlt
  have hwrap : wrapInt64 (f.offset + 0) = f.offset := by
    rw [add_zero]
    apply wrapInt64_of_isInt64
    unfold isInt64 minInt64
    unfold maxInt64 at hmax ⊢
    norm_num at hmax ⊢
    omega
  have hcopy : copy ([] : List UInt8) (f.content.drop f.offset.toNat) = ([], 0) := by
    simp [copy]
  rw [hcopy] at hread
  simp only [hwrap] at hread
  rw [hread]

/-- The loop with an empty buffer inside the content uses up any fuel. -/
theorem readUntilEOF_empty (f : embeddedFile)
    (hopen : f.closed = false) (h0 : 0 ≤ f.offset)
    (hlt : f.offset < (f.content.length : Int))
    (hmax : (f.content.length : Int) ≤ maxInt64) :
    ∀ fuel, readUntilEOF fuel f [] = none := by
  intro fuel
  induction fuel with
  | zero => rfl
  | succ fuel ih =>
    rw [readUntilEOF, Read_empty_data f hopen h0 hlt hmax]
    simp only [reduceCtorEq, if_false, if_true]
    rw [ih]

/-- C20 (zero-length buffer reads): for every open handle (its content no
longer than the largest `int`), if `0 ≤ offset < len(content)` then `Read`
with an empty buffer returns `n = 0` with no error, not `io.EOF`, and leaves
the handle unchanged, so the loop that repeats `Read` with an empty buffer
until `io.EOF` never gets there, whatever the fuel; whereas if `offset ≥
len(content)` then `Read` with an empty buffer returns `io.EOF`. -/
theorem Read_zero_length_buffer (f : embeddedFile)
    (hopen : f.closed = false)
    (hmax : (f.content.length : Int) ≤ maxInt64) :
    (0 ≤ f.offset → f.offset < (f.content.length : Int) →
      f.Read [] = some (f, ⟨[], 0, none⟩) ∧
      (∀ fuel, readUntilEOF fuel f [] = none) ∧
      (∀ n : Nat, f.states (List.replicate n (Call.Read [])) = List.replicate n f)) ∧
    (f.offset ≥ (f.content.length : Int) →
      f.Read [] = some (f, ⟨[], 0, some GoError.EOF⟩)) := by
  constructor
  · intro h0 hlt
    have hread := Read_empty_data f hopen h0 hlt hmax
    refine ⟨hread, readUntilEOF_empty f hopen h0 hlt hmax, ?_⟩
    intro n
    induction n with
    | zero => rfl
    | succ n ih =>
      simp only [List.replicate_succ, embeddedFile.states, embeddedFile.call, hread, ih]
  · intro hge
    simp [embeddedFile.Read, hopen, hge]

/-- C20 at the example handle moved to offset 3: an empty-buffer read gives
`(0, nil)` and the handle back; the loop runs out of any amount of fuel. -/
theorem Read_zero_length_buffer_witness :
    (exampleHandleAt3.closed = false ∧ (exampleHandleAt3.content.length : Int) ≤ maxInt64 ∧
      0 ≤ exampleHandleAt3.offset ∧
      exampleHandleAt3.offset < (exampleHandleAt3.content.length : Int)) ∧
    (exampleHandleAt3.Read [] = some (exampleHandleAt3, ⟨[], 0, none⟩) ∧
      (∀ fuel, readUntilEOF fuel exampleHandleAt3 [] = none) ∧
      (∀ n : Nat, exampleHandleAt3.states (List.replicate n (Call.Read []))
        = List.replicate n exampleHandleAt3)) :=
  ⟨⟨by decide, by decide, by decide, by decide⟩,
   (Read_zero_length_buffer exampleHandleAt3 (by decide) (by decide)).1
     (by decide) (by decide)⟩

end embeddedfs
